import Mathlib

/-!
Verification of the BizRay company-registry ingestion and normalization
pipeline.

The staging and canonical table shapes are taken from
`src/backend/db/migrations/001_init.sql` (tables `stg_companies`,
`stg_officers`, `stg_links`, `companies`, `officers`, `ownership_links`).
The normalization engine itself (`etl/normalize.py`), the fetch-on-miss
gateway and the bulk ingestion worker (`etl/bulk_api_ingest.py`) are not
part of the checked-in sources (only their shell wrapper, READMEs and SQL
schema are), so those operations are modelled from the specification, as
marked on each definition.
-/

namespace BizRay

/-- One officer record as carried by a staged extract, mirroring the
columns `person_id`, `person_name`, `role` of `stg_officers` /
`officers` in `001_init.sql`. -/
structure OfficerRec where
  personId : String
  personName : String
  role : String
deriving DecidableEq

/-- One postal address record carried by a staged extract
(spec data model: CanonicalAddress, wholesale-replaced like officers). -/
structure AddressRec where
  addressLine : String
  city : String
  country : String
deriving DecidableEq

/-- One relationship record carried by a staged extract, mirroring
`stg_links` (`to_register_id`, `link_type`) in `001_init.sql`. -/
structure LinkRec where
  toRegisterId : String
  linkType : String
deriving DecidableEq

/-- The structured payload of one staged company extract: identity
columns of `stg_companies` in `001_init.sql` plus the officer, address
and link collections staged alongside it. -/
structure RawExtract where
  name : String
  legalForm : String
  status : String
  addressLine : String
  city : String
  country : String
  officers : List OfficerRec
  addresses : List AddressRec
  links : List LinkRec
deriving DecidableEq

/-- One staging row: external identifier (`register_id`), extract
timestamp (`ingested_at`), ingestion status (ok or error) and the raw
payload, mirroring `stg_companies` in `001_init.sql`. -/
structure StagingRow where
  registerId : String
  ts : Nat
  ok : Bool
  payload : RawExtract
deriving DecidableEq

/-- Modelled from the spec: the canonical key is "derived
deterministically from the external registry identifier" (glossary and
section 4.4 step 2); the derivation function is not in the checked-in
sources, so it is taken to be the identifier itself, the simplest
deterministic derivation. -/
def canonicalKey (registerId : String) : String := registerId

theorem canonicalKey_injective : Function.Injective canonicalKey :=
  fun _ _ h => h

/-- One canonical company row, mirroring the `companies` table of
`001_init.sql` (`canonical_key`, `register_id`, `name`, `legal_form`,
`status`, `address_line`, `city`, `country`). -/
structure CompanyRow where
  canonical_key : String
  register_id : String
  name : String
  legal_form : String
  status : String
  address_line : String
  city : String
  country : String
deriving DecidableEq

/-- One canonical link row, mirroring `ownership_links` in
`001_init.sql` with companies addressed by canonical key; `srcTs` is
the metadata recording which extract last wrote the row. -/
@[ext]
structure LinkRow where
  fromKey : String
  toKey : String
  linkType : String
  srcTs : Nat
deriving DecidableEq

/-- The canonical store: the four canonical tables of `001_init.sql`
plus the address table of the spec data model.  Officer and address
rows are keyed by the canonical key of their owning company. -/
structure Canonical where
  companies : List CompanyRow
  officers : List (String × OfficerRec)
  addresses : List (String × AddressRec)
  links : List LinkRow
deriving DecidableEq

def emptyCanonical : Canonical := ⟨[], [], [], []⟩

/-- The most recent successful staging extract for an external
identifier (spec section 4.4 step 1): among the rows with ok status and
this identifier, keep the one with the strictly larger timestamp. -/
def latestOk (stg : List StagingRow) (rid : String) : Option StagingRow :=
  (stg.filter (fun r => r.ok && r.registerId == rid)).foldl
    (fun acc r =>
      match acc with
      | none => some r
      | some b => if b.ts < r.ts then some r else some b)
    none

/-- The canonical company row produced from one staged payload. -/
def companyTarget (rid : String) (p : RawExtract) : CompanyRow :=
  { canonical_key := canonicalKey rid
    register_id := rid
    name := p.name
    legal_form := p.legalForm
    status := p.status
    address_line := p.addressLine
    city := p.city
    country := p.country }

/-- Modelled from the spec: "Upsert CanonicalCompany by canonical key"
(section 4.4 step 2) — update the existing row in place when the key is
present, insert otherwise. -/
def upsertCompany (row : CompanyRow) (cs : List CompanyRow) : List CompanyRow :=
  if cs.any (fun c => c.canonical_key == row.canonical_key) then
    cs.map (fun c => if c.canonical_key == row.canonical_key then row else c)
  else
    cs ++ [row]

/-- Modelled from the spec: "Replace the officer set and address set for
that company wholesale (delete-then-insert)" (section 4.4 step 3) —
delete every row keyed by this company, then insert the latest
extract's rows. -/
def replaceKeyed {β : Type} (key : String) (news : List (String × β))
    (tbl : List (String × β)) : List (String × β) :=
  tbl.filter (fun e => e.1 != key) ++ news

/-- Two link rows with the same (source company, target company, type)
triple. -/
def linkSameTriple (a b : LinkRow) : Bool :=
  a.fromKey == b.fromKey && a.toKey == b.toKey && a.linkType == b.linkType

/-- Modelled from the spec: "Upsert links by their natural composite
key, updating type/metadata on conflict rather than duplicating"
(section 4.4 step 4). -/
def upsertLink (l : LinkRow) (ls : List LinkRow) : List LinkRow :=
  if ls.any (fun x => linkSameTriple x l) then
    ls.map (fun x => if linkSameTriple x l then l else x)
  else
    ls ++ [l]

/-- The canonical link rows contributed by one staged extract: links
from this company, stamped with the extract timestamp as metadata. -/
def linkRowsOf (key : String) (ts : Nat) (ls : List LinkRec) : List LinkRow :=
  ls.map (fun l => ⟨key, canonicalKey l.toRegisterId, l.linkType, ts⟩)

/-- Modelled from the spec: single-entity normalization (section 4.4):
select the most recent successful extract for the identifier, upsert
the canonical company by canonical key, replace its officer and address
sets wholesale, and upsert its outgoing links by composite key.  When
no successful extract exists the canonical store is left unchanged. -/
def normalize (stg : List StagingRow) (rid : String) (c : Canonical) : Canonical :=
  match latestOk stg rid with
  | none => c
  | some row =>
    let key := canonicalKey rid
    { companies := upsertCompany (companyTarget rid row.payload) c.companies
      officers := replaceKeyed key (row.payload.officers.map (fun o => (key, o))) c.officers
      addresses := replaceKeyed key (row.payload.addresses.map (fun a => (key, a))) c.addresses
      links := (linkRowsOf key row.ts row.payload.links).foldl
        (fun ls l => upsertLink l ls) c.links }

/-- The external identifiers with at least one successful staging row,
each listed once: the identifiers a batch normalization pass visits. -/
def stagedIds (stg : List StagingRow) : List String :=
  ((stg.filter (fun r => r.ok)).map (fun r => r.registerId)).dedup

/-- Modelled from the spec: the batch entry point of the Normalization
Engine — normalize every staged identifier (section 4.4). -/
def normalizeAll (stg : List StagingRow) (c : Canonical) : Canonical :=
  (stagedIds stg).foldl (fun s rid => normalize stg rid s) c

/-- Canonical-store states reachable from the empty store through the
two write entry points of the spec (section 6): batch normalization
runs and single-identifier on-demand normalizations. -/
inductive Reachable : Canonical → Prop where
  | init : Reachable emptyCanonical
  | bulk (stg : List StagingRow) {c : Canonical} :
      Reachable c → Reachable (normalizeAll stg c)
  | onDemand (stg : List StagingRow) (rid : String) {c : Canonical} :
      Reachable c → Reachable (normalize stg rid c)

/-! ### Canonical-key uniqueness (claim C1) -/

/-- Well-formedness of one canonical company row: its canonical key is
the deterministic derivation of its external identifier. -/
def CompanyRowWF (r : CompanyRow) : Prop :=
  r.canonical_key = canonicalKey r.register_id

/-- The company-table invariant: canonical keys are pairwise distinct
(the UNIQUE constraint on `companies.canonical_key` in `001_init.sql`)
and every row's key derives from its external identifier. -/
def CompaniesInv (c : Canonical) : Prop :=
  (c.companies.map (fun r => r.canonical_key)).Nodup ∧
    ∀ r ∈ c.companies, CompanyRowWF r

theorem upsertCompany_map_key (row : CompanyRow) (cs : List CompanyRow) :
    (upsertCompany row cs).map (fun r => r.canonical_key) =
      if cs.any (fun c => c.canonical_key == row.canonical_key) then
        cs.map (fun r => r.canonical_key)
      else
        cs.map (fun r => r.canonical_key) ++ [row.canonical_key] := by
  unfold upsertCompany
  split
  · rw [List.map_map]
    refine List.map_congr_left ?_
    intro c _
    by_cases h : c.canonical_key = row.canonical_key
    · simp [Function.comp, h]
    · simp [Function.comp, h]
  · simp

theorem upsertCompany_nodup_key (row : CompanyRow) (cs : List CompanyRow)
    (h : (cs.map (fun r => r.canonical_key)).Nodup) :
    ((upsertCompany row cs).map (fun r => r.canonical_key)).Nodup := by
  rw [upsertCompany_map_key]
  split
  · exact h
  · rename_i hany
    have hnot : row.canonical_key ∉ cs.map (fun r => r.canonical_key) := by
      intro hmem
      rcases List.mem_map.mp hmem with ⟨c, hc, hkey⟩
      exact hany (List.any_eq_true.mpr ⟨c, hc, beq_iff_eq.mpr hkey⟩)
    simp only [List.nodup_append, List.nodup_cons, List.nodup_nil]
    exact ⟨h, ⟨by simp, by simp⟩, by
      intro a ha hb
      simp only [List.mem_singleton] at hb
      exact hnot (hb ▸ ha)⟩

theorem upsertCompany_wf (row : CompanyRow) (cs : List CompanyRow)
    (hcs : ∀ r ∈ cs, CompanyRowWF r) (hrow : CompanyRowWF row) :
    ∀ r ∈ upsertCompany row cs, CompanyRowWF r := by
  intro r hr
  unfold upsertCompany at hr
  split at hr
  · rcases List.mem_map.mp hr with ⟨c, hc, hcr⟩
    by_cases h : c.canonical_key = row.canonical_key
    · simp only [h, beq_self_eq_true, if_true] at hcr
      exact hcr ▸ hrow
    · simp only [beq_iff_eq, h, if_false] at hcr
      exact hcr ▸ hcs c hc
  · rcases List.mem_append.mp hr with h | h
    · exact hcs r h
    · simp only [List.mem_singleton] at h
      exact h ▸ hrow

theorem mem_upsertCompany_self (row : CompanyRow) (cs : List CompanyRow) :
    row ∈ upsertCompany row cs := by
  unfold upsertCompany
  split
  · rename_i hany
    rcases List.any_eq_true.mp hany with ⟨c, hc, hkey⟩
    refine List.mem_map.mpr ⟨c, hc, ?_⟩
    simp [hkey]
  · exact List.mem_append_right _ (List.mem_singleton.mpr rfl)

theorem companyTarget_wf (rid : String) (p : RawExtract) :
    CompanyRowWF (companyTarget rid p) := rfl

theorem normalize_companiesInv (stg : List StagingRow) (rid : String)
    {c : Canonical} (h : CompaniesInv c) : CompaniesInv (normalize stg rid c) := by
  unfold normalize
  cases hl : latestOk stg rid with
  | none => exact h
  | some row =>
    refine ⟨upsertCompany_nodup_key _ _ h.1, upsertCompany_wf _ _ h.2 (companyTarget_wf rid _)⟩

theorem normalizeAll_companiesInv (stg : List StagingRow)
    {c : Canonical} (h : CompaniesInv c) : CompaniesInv (normalizeAll stg c) := by
  unfold normalizeAll
  generalize stagedIds stg = L
  induction L generalizing c with
  | nil => exact h
  | cons rid L ih => exact ih (normalize_companiesInv stg rid h)

theorem reachable_companiesInv {c : Canonical} (h : Reachable c) : CompaniesInv c := by
  induction h with
  | init => exact ⟨List.nodup_nil, by intro r hr; cases hr⟩
  | bulk stg _ ih => exact normalizeAll_companiesInv stg ih
  | onDemand stg rid _ ih => exact normalize_companiesInv stg rid ih

theorem companiesInv_register_nodup {c : Canonical} (h : CompaniesInv c) :
    (c.companies.map (fun r => r.register_id)).Nodup := by
  have : c.companies.map (fun r => r.register_id) =
      c.companies.map (fun r => r.canonical_key) :=
    (List.map_congr_left (fun r hr => (h.2 r hr).symm))
  rw [this]
  exact h.1

theorem normalize_mem_of_isSome (stg : List StagingRow) (rid : String)
    (c : Canonical) (h : (latestOk stg rid).isSome) :
    ∃ r ∈ (normalize stg rid c).companies, r.register_id = rid := by
  unfold normalize
  cases hl : latestOk stg rid with
  | none => rw [hl] at h; cases h
  | some row =>
    exact ⟨companyTarget rid row.payload,
      mem_upsertCompany_self _ _, rfl⟩

theorem countP_register_eq_count (cs : List CompanyRow) (rid : String) :
    cs.countP (fun r => r.register_id == rid) =
      (cs.map (fun r => r.register_id)).count rid := by
  rw [List.count, List.countP_map]
  rfl

/-- C1: in every reachable canonical store, no two company rows share an
external identifier (the canonical key, derived deterministically from
the identifier, is unique), and normalizing any identifier with a
successful staged extract — on whichever path — leaves exactly one
company row for that identifier. -/
theorem claim1_company_unique_per_identifier (s : Canonical) (h : Reachable s) :
    (s.companies.map (fun r => r.register_id)).Nodup ∧
      ∀ (stg : List StagingRow) (rid : String), (latestOk stg rid).isSome →
        (normalize stg rid s).companies.countP (fun r => r.register_id == rid) = 1 := by
  have hinv := reachable_companiesInv h
  refine ⟨companiesInv_register_nodup hinv, ?_⟩
  intro stg rid hsome
  have hinv' := normalize_companiesInv stg rid hinv
  rcases normalize_mem_of_isSome stg rid s hsome with ⟨r, hr, hrid⟩
  rw [countP_register_eq_count]
  exact List.count_eq_one_of_mem (companiesInv_register_nodup hinv')
    (List.mem_map.mpr ⟨r, hr, hrid⟩)

/-! ### Latest-wins normalization (claim C2) -/

theorem latest_fold_eq (e : StagingRow) :
    ∀ (l : List StagingRow) (acc : Option StagingRow),
      (∀ b, acc = some b → b = e ∨ b.ts < e.ts) →
      (acc = some e ∨ e ∈ l) →
      (∀ x ∈ l, x = e ∨ x.ts < e.ts) →
      l.foldl
        (fun acc r =>
          match acc with
          | none => some r
          | some b => if b.ts < r.ts then some r else some b)
        acc = some e := by
  intro l
  induction l with
  | nil =>
    intro acc hacc hin _
    rcases hin with h | h
    · exact h
    · cases h
  | cons x l ih =>
    intro acc hacc hin hall
    simp only [List.foldl_cons]
    apply ih
    · intro b hb
      cases acc with
      | none =>
        simp only at hb
        cases hb
        exact hall x (List.mem_cons_self x l)
      | some a =>
        simp only at hb
        split at hb
        · cases hb
          exact hall x (List.mem_cons_self x l)
        · cases hb
          exact hacc b rfl
    · rcases hin with h | h
      · subst h
        left
        simp only
        split
        · rename_i hlt
          rcases hall x (List.mem_cons_self x l) with rfl | hx
          · rfl
          · omega
        · rfl
      · rcases List.mem_cons.mp h with rfl | h
        · left
          cases acc with
          | none => rfl
          | some a =>
            simp only
            split
            · rfl
            · rename_i hnlt
              rcases hacc a rfl with rfl | ha
              · rfl
              · omega
        · right; exact h
    · intro y hy
      exact hall y (List.mem_cons_of_mem x hy)

theorem latestOk_eq_of_strict_max (stg : List StagingRow) (rid : String)
    (e : StagingRow) (he : e ∈ stg) (hok : e.ok = true) (hrid : e.registerId = rid)
    (hmax : ∀ x ∈ stg, x.ok = true → x.registerId = rid → x = e ∨ x.ts < e.ts) :
    latestOk stg rid = some e := by
  unfold latestOk
  apply latest_fold_eq
  · intro b hb
    cases hb
  · right
    refine List.mem_filter.mpr ⟨he, ?_⟩
    simp [hok, hrid]
  · intro x hx
    rcases List.mem_filter.mp hx with ⟨hxs, hp⟩
    simp only [Bool.and_eq_true, beq_iff_eq] at hp
    exact hmax x hxs hp.1 hp.2

theorem find?_map_update (row : CompanyRow) (cs : List CompanyRow)
    (h : cs.any (fun c => c.canonical_key == row.canonical_key) = true) :
    (cs.map (fun c => if c.canonical_key == row.canonical_key then row else c)).find?
      (fun r => r.canonical_key == row.canonical_key) = some row := by
  induction cs with
  | nil => cases h
  | cons c cs ih =>
    simp only [List.map_cons]
    cases hpc : (c.canonical_key == row.canonical_key) with
    | true =>
      rw [if_pos rfl]
      exact List.find?_cons_of_pos _ (by simp)
    | false =>
      rw [if_neg (by simp)]
      rw [List.find?_cons_of_neg _ (by simp [hpc])]
      apply ih
      simp only [List.any_cons, hpc, Bool.false_or] at h
      exact h

theorem find?_append_singleton {α : Type} {p : α → Bool} (l : List α) (a : α)
    (h : ∀ x ∈ l, p x = false) (ha : p a = true) :
    (l ++ [a]).find? p = some a := by
  induction l with
  | nil => simp [List.find?, ha]
  | cons x l ih =>
    rw [List.cons_append, List.find?_cons_of_neg _ (by simp [h x (List.mem_cons_self x l)])]
    exact ih (fun y hy => h y (List.mem_cons_of_mem x hy))

theorem find?_upsertCompany (row : CompanyRow) (cs : List CompanyRow) :
    (upsertCompany row cs).find? (fun r => r.canonical_key == row.canonical_key) =
      some row := by
  unfold upsertCompany
  split
  · rename_i h
    exact find?_map_update row cs h
  · rename_i h
    apply find?_append_singleton
    · intro x hx
      cases hp : (x.canonical_key == row.canonical_key) with
      | true => exact absurd (List.any_eq_true.mpr ⟨x, hx, hp⟩) h
      | false => rfl
    · simp

/-- The rows of a keyed table belonging to one company. -/
def keyedFor {β : Type} (key : String) (tbl : List (String × β)) : List β :=
  (tbl.filter (fun e => e.1 == key)).map (fun e => e.2)

theorem keyedFor_replaceKeyed {β : Type} (key : String)
    (news : List (String × β)) (tbl : List (String × β))
    (hnews : ∀ e ∈ news, e.1 = key) :
    keyedFor key (replaceKeyed key news tbl) = news.map (fun e => e.2) := by
  unfold keyedFor replaceKeyed
  rw [List.filter_append]
  have h1 : (tbl.filter (fun e => e.1 != key)).filter (fun e => e.1 == key) = [] := by
    rw [List.filter_eq_nil_iff]
    intro a ha
    rcases List.mem_filter.mp ha with ⟨-, hne⟩
    simp only [bne_iff_ne, ne_eq] at hne
    simp [hne]
  have h2 : news.filter (fun e => e.1 == key) = news := by
    rw [List.filter_eq_self]
    intro a ha
    exact beq_iff_eq.mpr (hnews a ha)
  rw [h1, h2, List.nil_append]

theorem normalize_eq_of_latest (stg : List StagingRow) (rid : String) (c : Canonical)
    (row : StagingRow) (h : latestOk stg rid = some row) :
    normalize stg rid c =
      { companies := upsertCompany (companyTarget rid row.payload) c.companies
        officers := replaceKeyed (canonicalKey rid)
          (row.payload.officers.map (fun o => (canonicalKey rid, o))) c.officers
        addresses := replaceKeyed (canonicalKey rid)
          (row.payload.addresses.map (fun a => (canonicalKey rid, a))) c.addresses
        links := (linkRowsOf (canonicalKey rid) row.ts row.payload.links).foldl
          (fun ls l => upsertLink l ls) c.links } := by
  unfold normalize
  rw [h]

/-- C2: when an external identifier has a strictly latest successful
staging extract, normalization produces the canonical company built
from exactly that extract's fields, and the company's officer and
address sets are exactly the sets of that extract — rows present only
in older extracts are gone. -/
theorem claim2_latest_wins (stg : List StagingRow) (rid : String) (c : Canonical)
    (e : StagingRow) (he : e ∈ stg) (hok : e.ok = true) (hrid : e.registerId = rid)
    (hmax : ∀ x ∈ stg, x.ok = true → x.registerId = rid → x = e ∨ x.ts < e.ts) :
    (normalize stg rid c).companies.find?
        (fun r => r.canonical_key == canonicalKey rid) =
      some (companyTarget rid e.payload) ∧
    keyedFor (canonicalKey rid) (normalize stg rid c).officers = e.payload.officers ∧
    keyedFor (canonicalKey rid) (normalize stg rid c).addresses = e.payload.addresses := by
  have hl := latestOk_eq_of_strict_max stg rid e he hok hrid hmax
  rw [normalize_eq_of_latest stg rid c e hl]
  refine ⟨?_, ?_, ?_⟩
  · exact find?_upsertCompany (companyTarget rid e.payload) c.companies
  · show keyedFor (canonicalKey rid)
      (replaceKeyed (canonicalKey rid)
        (e.payload.officers.map (fun o => (canonicalKey rid, o))) c.officers) =
      e.payload.officers
    rw [keyedFor_replaceKeyed _ _ _
      (by intro x hx; rcases List.mem_map.mp hx with ⟨o, -, rfl⟩; rfl)]
    simp
  · show keyedFor (canonicalKey rid)
      (replaceKeyed (canonicalKey rid)
        (e.payload.addresses.map (fun a => (canonicalKey rid, a))) c.addresses) =
      e.payload.addresses
    rw [keyedFor_replaceKeyed _ _ _
      (by intro x hx; rcases List.mem_map.mp hx with ⟨a, -, rfl⟩; rfl)]
    simp

/-! ### Idempotent normalization (claim C3): component decomposition -/

/-- The company-table effect of normalizing one identifier. -/
def companiesStep (stg : List StagingRow) (rid : String)
    (cs : List CompanyRow) : List CompanyRow :=
  match latestOk stg rid with
  | none => cs
  | some row => upsertCompany (companyTarget rid row.payload) cs

/-- The officer-table effect of normalizing one identifier. -/
def officersStep (stg : List StagingRow) (rid : String)
    (tbl : List (String × OfficerRec)) : List (String × OfficerRec) :=
  match latestOk stg rid with
  | none => tbl
  | some row =>
    replaceKeyed (canonicalKey rid)
      (row.payload.officers.map (fun o => (canonicalKey rid, o))) tbl

/-- The address-table effect of normalizing one identifier. -/
def addressesStep (stg : List StagingRow) (rid : String)
    (tbl : List (String × AddressRec)) : List (String × AddressRec) :=
  match latestOk stg rid with
  | none => tbl
  | some row =>
    replaceKeyed (canonicalKey rid)
      (row.payload.addresses.map (fun a => (canonicalKey rid, a))) tbl

/-- The link-table effect of normalizing one identifier. -/
def linksStep (stg : List StagingRow) (rid : String)
    (ls : List LinkRow) : List LinkRow :=
  match latestOk stg rid with
  | none => ls
  | some row =>
    (linkRowsOf (canonicalKey rid) row.ts row.payload.links).foldl
      (fun acc l => upsertLink l acc) ls

theorem normalize_components (stg : List StagingRow) (rid : String) (c : Canonical) :
    normalize stg rid c =
      ⟨companiesStep stg rid c.companies, officersStep stg rid c.officers,
        addressesStep stg rid c.addresses, linksStep stg rid c.links⟩ := by
  unfold normalize companiesStep officersStep addressesStep linksStep
  cases latestOk stg rid <;> rfl

theorem foldl_normalize_components (stg : List StagingRow) (L : List String) :
    ∀ c : Canonical,
      L.foldl (fun s rid => normalize stg rid s) c =
        ⟨L.foldl (fun x rid => companiesStep stg rid x) c.companies,
          L.foldl (fun x rid => officersStep stg rid x) c.officers,
          L.foldl (fun x rid => addressesStep stg rid x) c.addresses,
          L.foldl (fun x rid => linksStep stg rid x) c.links⟩ := by
  induction L with
  | nil => intro c; rfl
  | cons rid L ih =>
    intro c
    simp only [List.foldl_cons]
    rw [normalize_components, ih]

theorem latest_fold_isSome :
    ∀ (l : List StagingRow) (acc : Option StagingRow),
      (acc.isSome = true ∨ l ≠ []) →
      (l.foldl
        (fun acc r =>
          match acc with
          | none => some r
          | some b => if b.ts < r.ts then some r else some b)
        acc).isSome = true := by
  intro l
  induction l with
  | nil =>
    intro acc h
    rcases h with h | h
    · exact h
    · exact absurd rfl h
  | cons x l ih =>
    intro acc _
    simp only [List.foldl_cons]
    apply ih
    left
    cases acc with
    | none => rfl
    | some b =>
      simp only
      split <;> rfl

theorem latestOk_isSome_of_mem_stagedIds (stg : List StagingRow) (rid : String)
    (h : rid ∈ stagedIds stg) : (latestOk stg rid).isSome = true := by
  unfold stagedIds at h
  rw [List.mem_dedup] at h
  rcases List.mem_map.mp h with ⟨r, hr, hrid⟩
  rcases List.mem_filter.mp hr with ⟨hrs, hok⟩
  unfold latestOk
  apply latest_fold_isSome
  right
  apply List.ne_nil_of_mem (a := r)
  refine List.mem_filter.mpr ⟨hrs, ?_⟩
  simp [hok, hrid]

/-! Companies: after an upsert the target row is settled (present and
the unique row for its key), settledness survives later upserts, and
upserting a settled row is the identity. -/

def CompSettled (row : CompanyRow) (cs : List CompanyRow) : Prop :=
  (∃ x ∈ cs, x.canonical_key = row.canonical_key) ∧
    ∀ x ∈ cs, x.canonical_key = row.canonical_key → x = row

theorem upsertCompany_settles (row : CompanyRow) (cs : List CompanyRow) :
    CompSettled row (upsertCompany row cs) := by
  refine ⟨⟨row, mem_upsertCompany_self row cs, rfl⟩, ?_⟩
  intro x hx hkey
  unfold upsertCompany at hx
  split at hx
  · rcases List.mem_map.mp hx with ⟨c, hc, hcx⟩
    by_cases h : c.canonical_key = row.canonical_key
    · simp only [h, beq_self_eq_true, if_true] at hcx
      exact hcx.symm
    · simp only [beq_iff_eq, h, if_false] at hcx
      exact absurd (hcx ▸ hkey) h
  · rcases List.mem_append.mp hx with h | h
    · rename_i hany
      have : (cs.any fun c => c.canonical_key == row.canonical_key) = true :=
        List.any_eq_true.mpr ⟨x, h, beq_iff_eq.mpr hkey⟩
      exact absurd this hany
    · exact List.mem_singleton.mp h

theorem upsertCompany_preserves_settled (row row' : CompanyRow) (cs : List CompanyRow)
    (h : CompSettled row cs)
    (hk : row' = row ∨ row'.canonical_key ≠ row.canonical_key) :
    CompSettled row (upsertCompany row' cs) := by
  rcases hk with rfl | hk
  · exact upsertCompany_settles _ _
  · constructor
    · rcases h.1 with ⟨x, hx, hxkey⟩
      unfold upsertCompany
      split
      · refine ⟨x, List.mem_map.mpr ⟨x, hx, ?_⟩, hxkey⟩
        have hne : x.canonical_key ≠ row'.canonical_key := by
          rw [hxkey]
          exact fun hh => hk hh.symm
        rw [if_neg (by simp [hne])]
      · exact ⟨x, List.mem_append_left _ hx, hxkey⟩
    · intro y hy hykey
      unfold upsertCompany at hy
      split at hy
      · rcases List.mem_map.mp hy with ⟨c, hc, hcy⟩
        by_cases hc' : c.canonical_key = row'.canonical_key
        · simp only [hc', beq_self_eq_true, if_true] at hcy
          exact absurd (hcy ▸ hykey) hk
        · simp only [beq_iff_eq, hc', if_false] at hcy
          exact h.2 y (hcy ▸ hc) hykey
      · rcases List.mem_append.mp hy with hys | hys
        · exact h.2 y hys hykey
        · rw [List.mem_singleton.mp hys] at hykey
          exact absurd hykey hk

theorem upsertCompany_settled_id (row : CompanyRow) (cs : List CompanyRow)
    (h : CompSettled row cs) : upsertCompany row cs = cs := by
  rcases h.1 with ⟨x, hx, hxkey⟩
  unfold upsertCompany
  have hany : (cs.any fun c => c.canonical_key == row.canonical_key) = true :=
    List.any_eq_true.mpr ⟨x, hx, beq_iff_eq.mpr hxkey⟩
  rw [if_pos hany]
  have : ∀ c ∈ cs, (if c.canonical_key == row.canonical_key then row else c) = id c := by
    intro c hc
    by_cases hkey : c.canonical_key = row.canonical_key
    · simp only [hkey, beq_self_eq_true, if_true, id]
      exact (h.2 c hc hkey).symm
    · simp [hkey]
  rw [List.map_congr_left this, List.map_id]

/-- The target row of an identifier (when it has a successful extract)
is settled in the table. -/
def CompaniesStepSettled (stg : List StagingRow) (rid : String)
    (cs : List CompanyRow) : Prop :=
  ∀ row, latestOk stg rid = some row → CompSettled (companyTarget rid row.payload) cs

theorem companiesStep_preserves_settled (stg : List StagingRow) (r rid : String)
    (cs : List CompanyRow) (h : CompaniesStepSettled stg rid cs) :
    CompaniesStepSettled stg rid (companiesStep stg r cs) := by
  intro row hrow
  unfold companiesStep
  cases hl : latestOk stg r with
  | none => exact h row hrow
  | some row' =>
    apply upsertCompany_preserves_settled _ _ _ (h row hrow)
    by_cases hr : r = rid
    · subst hr
      rw [hl] at hrow
      cases hrow
      left
      rfl
    · right
      exact fun hh => hr (canonicalKey_injective hh)

theorem fold_companiesStep_preserves_settled (stg : List StagingRow) (rid : String)
    (L : List String) :
    ∀ cs, CompaniesStepSettled stg rid cs →
      CompaniesStepSettled stg rid (L.foldl (fun x r => companiesStep stg r x) cs) := by
  induction L with
  | nil => intro cs h; exact h
  | cons r L ih =>
    intro cs h
    exact ih _ (companiesStep_preserves_settled stg r rid cs h)

theorem companiesStep_settles_self (stg : List StagingRow) (rid : String)
    (cs : List CompanyRow) :
    CompaniesStepSettled stg rid (companiesStep stg rid cs) := by
  intro row hrow
  unfold companiesStep
  rw [hrow]
  exact upsertCompany_settles _ _

theorem fold_companiesStep_settled_all (stg : List StagingRow) (L : List String) :
    ∀ cs, ∀ rid ∈ L,
      CompaniesStepSettled stg rid (L.foldl (fun x r => companiesStep stg r x) cs) := by
  induction L with
  | nil => intro cs rid h; cases h
  | cons r L ih =>
    intro cs rid h
    simp only [List.foldl_cons]
    rcases List.mem_cons.mp h with rfl | h
    · exact fold_companiesStep_preserves_settled stg rid L _
        (companiesStep_settles_self stg rid cs)
    · exact ih _ rid h

theorem companiesStep_settled_id (stg : List StagingRow) (rid : String)
    (cs : List CompanyRow) (h : CompaniesStepSettled stg rid cs) :
    companiesStep stg rid cs = cs := by
  unfold companiesStep
  cases hl : latestOk stg rid with
  | none => rfl
  | some row => exact upsertCompany_settled_id _ _ (h row hl)

theorem fold_companiesStep_id (stg : List StagingRow) (L : List String) :
    ∀ cs, (∀ rid ∈ L, CompaniesStepSettled stg rid cs) →
      L.foldl (fun x r => companiesStep stg r x) cs = cs := by
  induction L with
  | nil => intro cs _; rfl
  | cons r L ih =>
    intro cs h
    simp only [List.foldl_cons]
    rw [companiesStep_settled_id stg r cs (h r (List.mem_cons_self r L))]
    exact ih cs (fun rid hr => h rid (List.mem_cons_of_mem r hr))

theorem fold_companiesStep_idem (stg : List StagingRow) (L : List String)
    (cs : List CompanyRow) :
    L.foldl (fun x r => companiesStep stg r x)
        (L.foldl (fun x r => companiesStep stg r x) cs) =
      L.foldl (fun x r => companiesStep stg r x) cs :=
  fold_companiesStep_id stg L _
    (fun rid hr => fold_companiesStep_settled_all stg L cs rid hr)

/-! Officer and address tables: a fold of wholesale replacements has a
normal form — the untouched rows followed by the replacement rows — and
is therefore idempotent. -/

theorem replaceFold_normal {β : Type} (news : String → List (String × β))
    (hnews : ∀ k, ∀ e ∈ news k, e.1 = k) :
    ∀ (keys : List String), keys.Nodup → ∀ tbl : List (String × β),
      keys.foldl (fun t k => replaceKeyed k (news k) t) tbl =
        tbl.filter (fun e => decide (e.1 ∉ keys)) ++ (keys.map news).flatten := by
  intro keys
  induction keys with
  | nil => intro _ tbl; simp
  | cons k ks ih =>
    intro hnd tbl
    simp only [List.foldl_cons, List.map_cons, List.flatten_cons]
    rw [ih (List.nodup_cons.mp hnd).2]
    unfold replaceKeyed
    rw [List.filter_append]
    have h1 : (news k).filter (fun e => decide (e.1 ∉ ks)) = news k := by
      rw [List.filter_eq_self]
      intro e he
      have hek := hnews k e he
      have hk : k ∉ ks := (List.nodup_cons.mp hnd).1
      simp [hek, hk]
    have h2 : (tbl.filter (fun e => e.1 != k)).filter (fun e => decide (e.1 ∉ ks)) =
        tbl.filter (fun e => decide (e.1 ∉ k :: ks)) := by
      rw [List.filter_filter]
      apply List.filter_congr
      intro e _
      by_cases h : e.1 = k
      · simp [h]
      · by_cases h' : e.1 ∈ ks <;> simp [h, h']
    rw [h1, h2, List.append_assoc]

theorem replaceFold_idem {β : Type} (news : String → List (String × β))
    (hnews : ∀ k, ∀ e ∈ news k, e.1 = k)
    (keys : List String) (hnd : keys.Nodup) (tbl : List (String × β)) :
    keys.foldl (fun t k => replaceKeyed k (news k) t)
        (keys.foldl (fun t k => replaceKeyed k (news k) t) tbl) =
      keys.foldl (fun t k => replaceKeyed k (news k) t) tbl := by
  rw [replaceFold_normal news hnews keys hnd tbl,
    replaceFold_normal news hnews keys hnd _]
  rw [List.filter_append]
  have h1 : (tbl.filter (fun e => decide (e.1 ∉ keys))).filter
      (fun e => decide (e.1 ∉ keys)) = tbl.filter (fun e => decide (e.1 ∉ keys)) :=
    List.filter_eq_self.mpr (fun a ha => (List.mem_filter.mp ha).2)
  have h2 : ((keys.map news).flatten).filter (fun e => decide (e.1 ∉ keys)) = [] := by
    rw [List.filter_eq_nil_iff]
    intro e he
    rcases List.mem_flatten.mp he with ⟨l, hl, hel⟩
    rcases List.mem_map.mp hl with ⟨k, hk, rfl⟩
    have hek := hnews k e hel
    simp [hek, hk]
  rw [h1, h2, List.append_nil]

/-- The replacement officer rows an identifier contributes. -/
def officerNews (stg : List StagingRow) (rid : String) : List (String × OfficerRec) :=
  match latestOk stg rid with
  | none => []
  | some row => row.payload.officers.map (fun o => (canonicalKey rid, o))

/-- The replacement address rows an identifier contributes. -/
def addressNews (stg : List StagingRow) (rid : String) : List (String × AddressRec) :=
  match latestOk stg rid with
  | none => []
  | some row => row.payload.addresses.map (fun a => (canonicalKey rid, a))

theorem officerNews_keys (stg : List StagingRow) (k : String) :
    ∀ e ∈ officerNews stg k, e.1 = k := by
  intro e he
  unfold officerNews at he
  cases hl : latestOk stg k with
  | none => rw [hl] at he; cases he
  | some row =>
    rw [hl] at he
    rcases List.mem_map.mp he with ⟨o, -, rfl⟩
    rfl

theorem addressNews_keys (stg : List StagingRow) (k : String) :
    ∀ e ∈ addressNews stg k, e.1 = k := by
  intro e he
  unfold addressNews at he
  cases hl : latestOk stg k with
  | none => rw [hl] at he; cases he
  | some row =>
    rw [hl] at he
    rcases List.mem_map.mp he with ⟨a, -, rfl⟩
    rfl

theorem fold_officersStep_eq_replaceFold (stg : List StagingRow) :
    ∀ (L : List String), (∀ rid ∈ L, (latestOk stg rid).isSome = true) →
      ∀ tbl, L.foldl (fun x r => officersStep stg r x) tbl =
        L.foldl (fun t k => replaceKeyed k (officerNews stg k) t) tbl := by
  intro L
  induction L with
  | nil => intro _ tbl; rfl
  | cons r L ih =>
    intro h tbl
    simp only [List.foldl_cons]
    have hstep : officersStep stg r tbl = replaceKeyed r (officerNews stg r) tbl := by
      unfold officersStep officerNews
      cases hl : latestOk stg r with
      | none =>
        have := h r (List.mem_cons_self r L)
        rw [hl] at this
        cases this
      | some row => rfl
    rw [hstep]
    exact ih (fun rid hr => h rid (List.mem_cons_of_mem r hr)) _

theorem fold_addressesStep_eq_replaceFold (stg : List StagingRow) :
    ∀ (L : List String), (∀ rid ∈ L, (latestOk stg rid).isSome = true) →
      ∀ tbl, L.foldl (fun x r => addressesStep stg r x) tbl =
        L.foldl (fun t k => replaceKeyed k (addressNews stg k) t) tbl := by
  intro L
  induction L with
  | nil => intro _ tbl; rfl
  | cons r L ih =>
    intro h tbl
    simp only [List.foldl_cons]
    have hstep : addressesStep stg r tbl = replaceKeyed r (addressNews stg r) tbl := by
      unfold addressesStep addressNews
      cases hl : latestOk stg r with
      | none =>
        have := h r (List.mem_cons_self r L)
        rw [hl] at this
        cases this
      | some row => rfl
    rw [hstep]
    exact ih (fun rid hr => h rid (List.mem_cons_of_mem r hr)) _

/-! Links: rows with the same composite key are an equivalence class;
after an upsert the row is settled, and upserting a settled row is the
identity. -/

theorem linkSameTriple_iff (a b : LinkRow) :
    linkSameTriple a b = true ↔
      a.fromKey = b.fromKey ∧ a.toKey = b.toKey ∧ a.linkType = b.linkType := by
  simp [linkSameTriple, Bool.and_eq_true, and_assoc]

theorem linkSameTriple_refl (a : LinkRow) : linkSameTriple a a = true := by
  simp [linkSameTriple]

theorem linkSameTriple_symm {a b : LinkRow} (h : linkSameTriple a b = true) :
    linkSameTriple b a = true := by
  rw [linkSameTriple_iff] at h ⊢
  exact ⟨h.1.symm, h.2.1.symm, h.2.2.symm⟩

theorem linkSameTriple_trans {a b c : LinkRow}
    (h1 : linkSameTriple a b = true) (h2 : linkSameTriple b c = true) :
    linkSameTriple a c = true := by
  rw [linkSameTriple_iff] at h1 h2 ⊢
  exact ⟨h1.1.trans h2.1, h1.2.1.trans h2.2.1, h1.2.2.trans h2.2.2⟩

def LinkSettled (l : LinkRow) (ls : List LinkRow) : Prop :=
  (∃ x ∈ ls, linkSameTriple x l = true) ∧
    ∀ x ∈ ls, linkSameTriple x l = true → x = l

theorem upsertLink_settles (l : LinkRow) (ls : List LinkRow) :
    LinkSettled l (upsertLink l ls) := by
  constructor
  · unfold upsertLink
    split
    · rename_i hany
      rcases List.any_eq_true.mp hany with ⟨x, hx, hp⟩
      refine ⟨l, List.mem_map.mpr ⟨x, hx, ?_⟩, linkSameTriple_refl l⟩
      rw [if_pos hp]
    · exact ⟨l, List.mem_append_right _ (List.mem_singleton.mpr rfl),
        linkSameTriple_refl l⟩
  · intro x hx hp
    unfold upsertLink at hx
    split at hx
    · rcases List.mem_map.mp hx with ⟨y, hy, hyx⟩
      cases hpy : linkSameTriple y l with
      | true => rw [if_pos hpy] at hyx; exact hyx.symm
      | false =>
        rw [if_neg (by simp [hpy])] at hyx
        rw [← hyx] at hp
        rw [hpy] at hp
        cases hp
    · rcases List.mem_append.mp hx with h | h
      · rename_i hany
        have : (ls.any fun x => linkSameTriple x l) = true :=
          List.any_eq_true.mpr ⟨x, h, hp⟩
        exact absurd this hany
      · exact List.mem_singleton.mp h

theorem upsertLink_preserves_settled (t l : LinkRow) (ls : List LinkRow)
    (h : LinkSettled t ls)
    (hk : l = t ∨ linkSameTriple l t = false) :
    LinkSettled t (upsertLink l ls) := by
  rcases hk with rfl | hk
  · exact upsertLink_settles _ _
  · constructor
    · rcases h.1 with ⟨x, hx, hxt⟩
      unfold upsertLink
      split
      · refine ⟨x, List.mem_map.mpr ⟨x, hx, ?_⟩, hxt⟩
        have hxl : linkSameTriple x l = false := by
          cases hc : linkSameTriple x l with
          | true =>
            have := linkSameTriple_trans (linkSameTriple_symm hc) hxt
            rw [this] at hk
            cases hk
          | false => rfl
        rw [if_neg (by simp [hxl])]
      · exact ⟨x, List.mem_append_left _ hx, hxt⟩
    · intro y hy hyt
      unfold upsertLink at hy
      split at hy
      · rcases List.mem_map.mp hy with ⟨x, hx, hxy⟩
        cases hc : linkSameTriple x l with
        | true =>
          rw [if_pos hc] at hxy
          rw [← hxy] at hyt
          rw [hyt] at hk
          cases hk
        | false =>
          rw [if_neg (by simp [hc])] at hxy
          exact h.2 y (hxy ▸ hx) hyt
      · rcases List.mem_append.mp hy with hys | hys
        · exact h.2 y hys hyt
        · rw [List.mem_singleton.mp hys] at hyt
          rw [hyt] at hk
          cases hk

theorem upsertLink_settled_id (l : LinkRow) (ls : List LinkRow)
    (h : LinkSettled l ls) : upsertLink l ls = ls := by
  rcases h.1 with ⟨x, hx, hxt⟩
  unfold upsertLink
  have hany : (ls.any fun x => linkSameTriple x l) = true :=
    List.any_eq_true.mpr ⟨x, hx, hxt⟩
  rw [if_pos hany]
  have : ∀ y ∈ ls, (if linkSameTriple y l then l else y) = id y := by
    intro y hy
    cases hc : linkSameTriple y l with
    | true => simp only [if_pos rfl, id]; exact (h.2 y hy hc).symm
    | false => rw [if_neg (by simp)]; rfl
  rw [List.map_congr_left this, List.map_id]

/-- The link rows an identifier contributes. -/
def linkNews (stg : List StagingRow) (rid : String) : List LinkRow :=
  match latestOk stg rid with
  | none => []
  | some row => linkRowsOf (canonicalKey rid) row.ts row.payload.links

theorem linkNews_fields (stg : List StagingRow) (r : String) :
    ∀ e ∈ linkNews stg r, e.fromKey = canonicalKey r ∧
      ∃ row, latestOk stg r = some row ∧ e.srcTs = row.ts := by
  intro e he
  unfold linkNews at he
  cases hl : latestOk stg r with
  | none => rw [hl] at he; cases he
  | some row =>
    rw [hl] at he
    unfold linkRowsOf at he
    rcases List.mem_map.mp he with ⟨l, -, rfl⟩
    exact ⟨rfl, row, rfl, rfl⟩

theorem linkNews_coherent (stg : List StagingRow) (L : List String) :
    ∀ a ∈ (L.map (linkNews stg)).flatten, ∀ b ∈ (L.map (linkNews stg)).flatten,
      linkSameTriple a b = true → a = b := by
  intro a ha b hb hab
  rcases List.mem_flatten.mp ha with ⟨la, hla, hala⟩
  rcases List.mem_map.mp hla with ⟨r1, hr1, rfl⟩
  rcases List.mem_flatten.mp hb with ⟨lb, hlb, halb⟩
  rcases List.mem_map.mp hlb with ⟨r2, hr2, rfl⟩
  rcases linkNews_fields stg r1 a hala with ⟨hfa, rowa, hrowa, htsa⟩
  rcases linkNews_fields stg r2 b halb with ⟨hfb, rowb, hrowb, htsb⟩
  rw [linkSameTriple_iff] at hab
  have hkeys : canonicalKey r1 = canonicalKey r2 := by
    rw [← hfa, ← hfb]
    exact hab.1
  have hr : r1 = r2 := canonicalKey_injective hkeys
  subst hr
  rw [hrowa] at hrowb
  cases hrowb
  apply LinkRow.ext
  · exact hab.1
  · exact hab.2.1
  · exact hab.2.2
  · rw [htsa, htsb]

theorem fold_upsertLink_preserves_settled (t : LinkRow) (news : List LinkRow) :
    ∀ ls, LinkSettled t ls →
      (∀ x ∈ news, x = t ∨ linkSameTriple x t = false) →
      LinkSettled t (news.foldl (fun acc l => upsertLink l acc) ls) := by
  induction news with
  | nil => intro ls h _; exact h
  | cons n ns ih =>
    intro ls h hc
    simp only [List.foldl_cons]
    apply ih
    · exact upsertLink_preserves_settled t n ls h (hc n (List.mem_cons_self n ns))
    · intro x hx
      exact hc x (List.mem_cons_of_mem n hx)

theorem fold_upsertLink_settled_all (news : List LinkRow)
    (hco : ∀ a ∈ news, ∀ b ∈ news, linkSameTriple a b = true → a = b) :
    ∀ ls, ∀ l ∈ news,
      LinkSettled l (news.foldl (fun acc x => upsertLink x acc) ls) := by
  induction news with
  | nil => intro ls l hl; cases hl
  | cons n ns ih =>
    intro ls l hl
    simp only [List.foldl_cons]
    rcases List.mem_cons.mp hl with rfl | hl
    · apply fold_upsertLink_preserves_settled l ns _ (upsertLink_settles l ls)
      intro x hx
      cases hc : linkSameTriple x l with
      | true =>
        left
        exact hco x (List.mem_cons_of_mem l hx) l (List.mem_cons_self l ns) hc
      | false => right; rfl
    · exact ih
        (fun a ha b hb => hco a (List.mem_cons_of_mem n ha) b (List.mem_cons_of_mem n hb))
        _ l hl

theorem fold_upsertLink_id (news : List LinkRow) :
    ∀ ls, (∀ l ∈ news, LinkSettled l ls) →
      news.foldl (fun acc x => upsertLink x acc) ls = ls := by
  induction news with
  | nil => intro ls _; rfl
  | cons n ns ih =>
    intro ls h
    simp only [List.foldl_cons]
    rw [upsertLink_settled_id n ls (h n (List.mem_cons_self n ns))]
    exact ih ls (fun l hl => h l (List.mem_cons_of_mem n hl))

theorem fold_upsertLink_idem (news : List LinkRow)
    (hco : ∀ a ∈ news, ∀ b ∈ news, linkSameTriple a b = true → a = b)
    (ls : List LinkRow) :
    news.foldl (fun acc x => upsertLink x acc)
        (news.foldl (fun acc x => upsertLink x acc) ls) =
      news.foldl (fun acc x => upsertLink x acc) ls :=
  fold_upsertLink_id news _
    (fun l hl => fold_upsertLink_settled_all news hco ls l hl)

theorem fold_linksStep_eq (stg : List StagingRow) :
    ∀ (L : List String) (ls : List LinkRow),
      L.foldl (fun x r => linksStep stg r x) ls =
        ((L.map (linkNews stg)).flatten).foldl (fun acc l => upsertLink l acc) ls := by
  intro L
  induction L with
  | nil => intro ls; rfl
  | cons r L ih =>
    intro ls
    simp only [List.foldl_cons, List.map_cons, List.flatten_cons, List.foldl_append]
    have hstep : linksStep stg r ls =
        (linkNews stg r).foldl (fun acc l => upsertLink l acc) ls := by
      unfold linksStep linkNews
      cases latestOk stg r with
      | none => rfl
      | some row => rfl
    rw [hstep]
    exact ih _

/-- C3: running the batch normalization a second time on identical
staged data leaves every canonical table — companies, officers,
addresses and links — exactly as the first run left it: no duplicate
rows appear and no row changes. -/
theorem claim3_normalization_idempotent (stg : List StagingRow) (c : Canonical) :
    normalizeAll stg (normalizeAll stg c) = normalizeAll stg c := by
  unfold normalizeAll
  have hnd : (stagedIds stg).Nodup := List.nodup_dedup _
  have hsome : ∀ rid ∈ stagedIds stg, (latestOk stg rid).isSome = true :=
    fun rid hr => latestOk_isSome_of_mem_stagedIds stg rid hr
  rw [foldl_normalize_components, foldl_normalize_components]
  simp only [Canonical.mk.injEq]
  refine ⟨?_, ?_, ?_, ?_⟩
  · exact fold_companiesStep_idem stg _ _
  · rw [fold_officersStep_eq_replaceFold stg _ hsome c.officers]
    rw [fold_officersStep_eq_replaceFold stg _ hsome
      ((stagedIds stg).foldl (fun t k => replaceKeyed k (officerNews stg k) t) c.officers)]
    exact replaceFold_idem _ (officerNews_keys stg) _ hnd _
  · rw [fold_addressesStep_eq_replaceFold stg _ hsome c.addresses]
    rw [fold_addressesStep_eq_replaceFold stg _ hsome
      ((stagedIds stg).foldl (fun t k => replaceKeyed k (addressNews stg k) t) c.addresses)]
    exact replaceFold_idem _ (addressNews_keys stg) _ hnd _
  · rw [fold_linksStep_eq stg _ c.links]
    rw [fold_linksStep_eq stg _
      (((stagedIds stg).map (linkNews stg)).flatten.foldl (fun acc l => upsertLink l acc) c.links)]
    exact fold_upsertLink_idem _ (linkNews_coherent stg _) _

/-! ### Link uniqueness (claim C4) -/

/-- At most one link row per (source, target, type) triple. -/
def LinksUnique (ls : List LinkRow) : Prop :=
  List.Pairwise (fun a b => linkSameTriple a b = false) ls

theorem upsertLink_pairwise (l : LinkRow) (ls : List LinkRow)
    (h : LinksUnique ls) : LinksUnique (upsertLink l ls) := by
  unfold upsertLink
  split
  · have hfx : ∀ x : LinkRow,
        linkSameTriple (if linkSameTriple x l = true then l else x) x = true := by
      intro x
      cases hc : linkSameTriple x l with
      | true => rw [if_pos rfl]; exact linkSameTriple_symm hc
      | false => rw [if_neg (by simp)]; exact linkSameTriple_refl x
    refine List.Pairwise.map _ ?_ h
    intro a b hab
    cases hc : linkSameTriple (if linkSameTriple a l = true then l else a)
        (if linkSameTriple b l = true then l else b) with
    | false => rfl
    | true =>
      have h1 : linkSameTriple a
          (if linkSameTriple a l = true then l else a) = true :=
        linkSameTriple_symm (hfx a)
      have h2 := linkSameTriple_trans (linkSameTriple_trans h1 hc) (hfx b)
      rw [h2] at hab
      cases hab
  · rename_i hany
    unfold LinksUnique
    rw [List.pairwise_append]
    refine ⟨h, List.pairwise_singleton _ _, ?_⟩
    intro a ha b hb
    rw [List.mem_singleton.mp hb]
    cases hc : linkSameTriple a l with
    | true => exact absurd (List.any_eq_true.mpr ⟨a, ha, hc⟩) hany
    | false => rfl

theorem fold_upsertLink_pairwise (news : List LinkRow) :
    ∀ ls, LinksUnique ls →
      LinksUnique (news.foldl (fun acc x => upsertLink x acc) ls) := by
  induction news with
  | nil => intro ls h; exact h
  | cons n ns ih =>
    intro ls h
    exact ih _ (upsertLink_pairwise n ls h)

theorem normalize_linksUnique (stg : List StagingRow) (rid : String)
    {c : Canonical} (h : LinksUnique c.links) :
    LinksUnique (normalize stg rid c).links := by
  rw [normalize_components]
  show LinksUnique (linksStep stg rid c.links)
  unfold linksStep
  cases latestOk stg rid with
  | none => exact h
  | some row => exact fold_upsertLink_pairwise _ _ h

theorem normalizeAll_linksUnique (stg : List StagingRow)
    {c : Canonical} (h : LinksUnique c.links) :
    LinksUnique (normalizeAll stg c).links := by
  unfold normalizeAll
  generalize stagedIds stg = L
  induction L generalizing c with
  | nil => exact h
  | cons rid L ih => exact ih (normalize_linksUnique stg rid h)

theorem reachable_linksUnique {s : Canonical} (h : Reachable s) :
    LinksUnique s.links := by
  induction h with
  | init => exact List.Pairwise.nil
  | bulk stg _ ih => exact normalizeAll_linksUnique stg ih
  | onDemand stg rid _ ih => exact normalize_linksUnique stg rid ih

theorem countP_eq_one_of_settled (ls : List LinkRow) (l : LinkRow)
    (hu : LinksUnique ls) (hs : LinkSettled l ls) :
    ls.countP (fun x => linkSameTriple x l) = 1 := by
  induction ls with
  | nil =>
    rcases hs.1 with ⟨x, hx, -⟩
    cases hx
  | cons y ys ih =>
    rcases List.pairwise_cons.mp hu with ⟨hhead, htail⟩
    rw [List.countP_cons]
    cases hpy : linkSameTriple y l with
    | true =>
      have hz : ys.countP (fun x => linkSameTriple x l) = 0 := by
        rw [List.countP_eq_zero]
        intro z hz hzl
        have : linkSameTriple y z = true :=
          linkSameTriple_trans hpy (linkSameTriple_symm hzl)
        rw [hhead z hz] at this
        cases this
      simp [hz, hpy]
    | false =>
      rcases hs.1 with ⟨x, hx, hxl⟩
      rcases List.mem_cons.mp hx with rfl | hx
      · rw [hxl] at hpy; cases hpy
      · have h1 : ys.countP (fun x => linkSameTriple x l) = 1 :=
          ih htail ⟨⟨x, hx, hxl⟩,
            fun z hz hzl => hs.2 z (List.mem_cons_of_mem y hz) hzl⟩
        simp [h1, hpy]

/-- C4: in every reachable canonical store the link table has at most
one row per (source company, target company, type) triple, and
re-ingesting the same directed link (two upserts with the same triple,
the later one carrying more recent metadata) leaves exactly one row for
that triple, equal to the most recent version. -/
theorem claim4_link_triple_unique (s : Canonical) (h : Reachable s) :
    List.Pairwise (fun a b => linkSameTriple a b = false) s.links ∧
      ∀ l1 l2 : LinkRow, linkSameTriple l1 l2 = true →
        (upsertLink l2 (upsertLink l1 s.links)).countP
            (fun x => linkSameTriple x l2) = 1 ∧
          ∀ x ∈ upsertLink l2 (upsertLink l1 s.links),
            linkSameTriple x l2 = true → x = l2 := by
  have hu : LinksUnique s.links := reachable_linksUnique h
  refine ⟨hu, ?_⟩
  intro l1 l2 _
  have hu2 : LinksUnique (upsertLink l2 (upsertLink l1 s.links)) :=
    upsertLink_pairwise _ _ (upsertLink_pairwise _ _ hu)
  have hs : LinkSettled l2 (upsertLink l2 (upsertLink l1 s.links)) :=
    upsertLink_settles _ _
  exact ⟨countP_eq_one_of_settled _ _ hu2 hs, hs.2⟩

/-! ### Concrete staging data used by the witnesses -/

/-- An older staged extract for company FN1 (timestamp 1), with an
officer and an address that disappear in the newer extract. -/
def demoExtractOld : RawExtract :=
  ⟨"Acme Alt", "OG", "AKTIV", "Old St 1", "Graz", "AT",
    [⟨"P1", "Old Officer", "CEO"⟩, ⟨"P3", "Gone Officer", "CTO"⟩],
    [⟨"Old St 1", "Graz", "AT"⟩], [⟨"FN2", "owns"⟩]⟩

/-- The newer staged extract for company FN1 (timestamp 2). -/
def demoExtractNew : RawExtract :=
  ⟨"Acme GmbH", "GmbH", "AKTIV", "Main St 5", "Wien", "AT",
    [⟨"P2", "New Officer", "CFO"⟩],
    [⟨"Main St 5", "Wien", "AT"⟩], [⟨"FN2", "owns"⟩]⟩

/-- Two successful staging rows for the same external identifier FN1,
as produced when two discovery strategies ingest the same company. -/
def demoStaging : List StagingRow :=
  [⟨"FN1", 1, true, demoExtractOld⟩, ⟨"FN1", 2, true, demoExtractNew⟩]

def demoState : Canonical := normalizeAll demoStaging emptyCanonical

/-- Witness for C1 at the concrete double-ingested staging data. -/
theorem claim1_witness :
    (demoState.companies.map (fun r => r.register_id)).Nodup ∧
      (normalize demoStaging "FN1" demoState).companies.countP
        (fun r => r.register_id == "FN1") = 1 := by
  have h := claim1_company_unique_per_identifier demoState
    (Reachable.bulk demoStaging Reachable.init)
  exact ⟨h.1, h.2 demoStaging "FN1" (by decide)⟩

/-- Witness for C2: normalizing FN1 yields exactly the officer roster
of the newer extract; the old extract's officers are gone. -/
theorem claim2_witness :
    keyedFor (canonicalKey "FN1") (normalize demoStaging "FN1" emptyCanonical).officers =
      demoExtractNew.officers :=
  (claim2_latest_wins demoStaging "FN1" emptyCanonical
    ⟨"FN1", 2, true, demoExtractNew⟩ (by decide) rfl rfl (by decide)).2.1

def demoLink1 : LinkRow := ⟨"FN1", "FN2", "owns", 1⟩

def demoLink2 : LinkRow := ⟨"FN1", "FN2", "owns", 2⟩

/-- Witness for C4: upserting the same (FN1, FN2, owns) link twice
leaves exactly one row for that triple. -/
theorem claim4_witness :
    (upsertLink demoLink2 (upsertLink demoLink1 emptyCanonical.links)).countP
        (fun x => linkSameTriple x demoLink2) = 1 :=
  ((claim4_link_triple_unique emptyCanonical Reachable.init).2
    demoLink1 demoLink2 (by decide)).1

/-! ### Ingestion worker pool and partial-failure isolation (claim C6) -/

/-- Modelled from the spec: the outcome classification of one Registry
Client fetch (sections 4.1 and 7): success, NotFound (a valid
non-error outcome), FatalError (not retried), or a TransientError whose
retries are exhausted. -/
inductive FetchResult where
  | ok (payload : RawExtract)
  | notFound
  | fatal
  | transientExhausted
deriving DecidableEq

def FetchResult.isOk : FetchResult → Bool
  | .ok _ => true
  | _ => false

def FetchResult.isFailure : FetchResult → Bool
  | .fatal => true
  | .transientExhausted => true
  | _ => false

def FetchResult.isNotFound : FetchResult → Bool
  | .notFound => true
  | _ => false

/-- Bookkeeping of one bulk run (spec data model: IngestionRun). -/
structure RunStats where
  attempted : Nat
  succeeded : Nat
  failed : Nat
  skipped : Nat
deriving DecidableEq

def emptyStats : RunStats := ⟨0, 0, 0, 0⟩

/-- Placeholder payload recorded with a staging error row. -/
def emptyPayload : RawExtract := ⟨"", "", "", "", "", "", [], [], []⟩

/-- Modelled from the spec: one worker-pool step (section 4.3) — on
success write a StagingExtract row, on NotFound record a skip without
staging, on failure record a StagingExtract with error status and
continue; the batch is never aborted. -/
def batchStep (fetch : String → FetchResult)
    (acc : RunStats × List StagingRow) (rid : String) : RunStats × List StagingRow :=
  match fetch rid with
  | .ok p =>
    ({ acc.1 with attempted := acc.1.attempted + 1, succeeded := acc.1.succeeded + 1 },
      acc.2 ++ [⟨rid, 0, true, p⟩])
  | .notFound =>
    ({ acc.1 with attempted := acc.1.attempted + 1, skipped := acc.1.skipped + 1 },
      acc.2)
  | .fatal =>
    ({ acc.1 with attempted := acc.1.attempted + 1, failed := acc.1.failed + 1 },
      acc.2 ++ [⟨rid, 0, false, emptyPayload⟩])
  | .transientExhausted =>
    ({ acc.1 with attempted := acc.1.attempted + 1, failed := acc.1.failed + 1 },
      acc.2 ++ [⟨rid, 0, false, emptyPayload⟩])

/-- Modelled from the spec: the Ingestion Worker Pool processing a
batch of candidate identifiers (section 4.3). -/
def runBatch (fetch : String → FetchResult) (ids : List String) :
    RunStats × List StagingRow :=
  ids.foldl (batchStep fetch) (emptyStats, [])

/-- The staging rows a batch leaves behind, identifier by identifier. -/
def stagedRowsOf (fetch : String → FetchResult) : List String → List StagingRow
  | [] => []
  | rid :: rest =>
    (match fetch rid with
      | .ok p => [⟨rid, 0, true, p⟩]
      | .notFound => []
      | .fatal => [⟨rid, 0, false, emptyPayload⟩]
      | .transientExhausted => [⟨rid, 0, false, emptyPayload⟩]) ++
      stagedRowsOf fetch rest

theorem stagedRowsOf_cons (fetch : String → FetchResult) (rid : String)
    (rest : List String) :
    stagedRowsOf fetch (rid :: rest) =
      (match fetch rid with
        | .ok p => [⟨rid, 0, true, p⟩]
        | .notFound => []
        | .fatal => [⟨rid, 0, false, emptyPayload⟩]
        | .transientExhausted => [⟨rid, 0, false, emptyPayload⟩]) ++
        stagedRowsOf fetch rest := rfl

theorem runBatch_fold (fetch : String → FetchResult) :
    ∀ (ids : List String) (st : RunStats) (rows : List StagingRow),
      ids.foldl (batchStep fetch) (st, rows) =
        (⟨st.attempted + ids.length,
          st.succeeded + (ids.filter (fun i => (fetch i).isOk)).length,
          st.failed + (ids.filter (fun i => (fetch i).isFailure)).length,
          st.skipped + (ids.filter (fun i => (fetch i).isNotFound)).length⟩,
          rows ++ stagedRowsOf fetch ids) := by
  intro ids
  induction ids with
  | nil => intro st rows; simp [stagedRowsOf]
  | cons rid ids ih =>
    intro st rows
    simp only [List.foldl_cons]
    cases hl : fetch rid with
    | ok p =>
      show ids.foldl (batchStep fetch) (batchStep fetch (st, rows) rid) = _
      rw [show batchStep fetch (st, rows) rid =
        ({ st with attempted := st.attempted + 1, succeeded := st.succeeded + 1 },
          rows ++ [⟨rid, 0, true, p⟩]) by unfold batchStep; rw [hl]]
      rw [ih]
      rw [stagedRowsOf_cons, hl]
      simp only [List.filter_cons, hl, Prod.mk.injEq, RunStats.mk.injEq]
      refine ⟨⟨by simp; omega, by simp [FetchResult.isOk]; omega,
        by simp [FetchResult.isFailure], by simp [FetchResult.isNotFound]⟩, ?_⟩
      simp
    | notFound =>
      show ids.foldl (batchStep fetch) (batchStep fetch (st, rows) rid) = _
      rw [show batchStep fetch (st, rows) rid =
        ({ st with attempted := st.attempted + 1, skipped := st.skipped + 1 },
          rows) by unfold batchStep; rw [hl]]
      rw [ih]
      rw [stagedRowsOf_cons, hl]
      simp only [List.filter_cons, hl, Prod.mk.injEq, RunStats.mk.injEq]
      refine ⟨⟨by simp; omega, by simp [FetchResult.isOk],
        by simp [FetchResult.isFailure], by simp [FetchResult.isNotFound]; omega⟩, ?_⟩
      simp
    | fatal =>
      show ids.foldl (batchStep fetch) (batchStep fetch (st, rows) rid) = _
      rw [show batchStep fetch (st, rows) rid =
        ({ st with attempted := st.attempted + 1, failed := st.failed + 1 },
          rows ++ [⟨rid, 0, false, emptyPayload⟩]) by unfold batchStep; rw [hl]]
      rw [ih]
      rw [stagedRowsOf_cons, hl]
      simp only [List.filter_cons, hl, Prod.mk.injEq, RunStats.mk.injEq]
      refine ⟨⟨by simp; omega, by simp [FetchResult.isOk],
        by simp [FetchResult.isFailure]; omega, by simp [FetchResult.isNotFound]⟩, ?_⟩
      simp
    | transientExhausted =>
      show ids.foldl (batchStep fetch) (batchStep fetch (st, rows) rid) = _
      rw [show batchStep fetch (st, rows) rid =
        ({ st with attempted := st.attempted + 1, failed := st.failed + 1 },
          rows ++ [⟨rid, 0, false, emptyPayload⟩]) by unfold batchStep; rw [hl]]
      rw [ih]
      rw [stagedRowsOf_cons, hl]
      simp only [List.filter_cons, hl, Prod.mk.injEq, RunStats.mk.injEq]
      refine ⟨⟨by simp; omega, by simp [FetchResult.isOk],
        by simp [FetchResult.isFailure]; omega, by simp [FetchResult.isNotFound]⟩, ?_⟩
      simp

theorem stagedRowsOf_ok_ids (fetch : String → FetchResult) :
    ∀ ids : List String,
      ((stagedRowsOf fetch ids).filter (fun r => r.ok)).map (fun r => r.registerId) =
        ids.filter (fun i => (fetch i).isOk) := by
  intro ids
  induction ids with
  | nil => rfl
  | cons rid ids ih =>
    rw [stagedRowsOf_cons, List.filter_cons]
    cases hl : fetch rid with
    | ok p =>
      simp only [List.filter_append, List.map_append, ih, hl, FetchResult.isOk]
      simp [List.filter_cons]
    | notFound =>
      simp only [List.filter_append, List.map_append, ih, hl, FetchResult.isOk]
      simp [List.filter_cons]
    | fatal =>
      simp only [List.filter_append, List.map_append, ih, hl, FetchResult.isOk]
      simp [List.filter_cons]
    | transientExhausted =>
      simp only [List.filter_append, List.map_append, ih, hl, FetchResult.isOk]
      simp [List.filter_cons]

theorem fold_normalize_companies_keys (stg : List StagingRow) :
    ∀ (L : List String) (c : Canonical), L.Nodup →
      (∀ rid ∈ L, (latestOk stg rid).isSome = true) →
      (∀ rid ∈ L, canonicalKey rid ∉ c.companies.map (fun r => r.canonical_key)) →
      (L.foldl (fun s rid => normalize stg rid s) c).companies.map
          (fun r => r.canonical_key) =
        c.companies.map (fun r => r.canonical_key) ++ L.map canonicalKey := by
  intro L
  induction L with
  | nil => intro c _ _ _; simp
  | cons r L ih =>
    intro c hnd hsome hfresh
    simp only [List.foldl_cons]
    cases hl : latestOk stg r with
    | none =>
      have := hsome r (List.mem_cons_self r L)
      rw [hl] at this
      cases this
    | some row =>
      have hcomp : (normalize stg r c).companies =
          upsertCompany (companyTarget r row.payload) c.companies := by
        rw [normalize_eq_of_latest stg r c row hl]
      have hfresh' : ¬ (c.companies.any
          fun x => x.canonical_key == (companyTarget r row.payload).canonical_key) = true := by
        intro hany
        rcases List.any_eq_true.mp hany with ⟨x, hx, hp⟩
        exact hfresh r (List.mem_cons_self r L)
          (List.mem_map.mpr ⟨x, hx, beq_iff_eq.mp hp⟩)
      have hkeys : (normalize stg r c).companies.map (fun x => x.canonical_key) =
          c.companies.map (fun x => x.canonical_key) ++ [canonicalKey r] := by
        rw [hcomp, upsertCompany_map_key, if_neg hfresh']
        rfl
      rw [ih (normalize stg r c) (List.nodup_cons.mp hnd).2
        (fun rid hr => hsome rid (List.mem_cons_of_mem r hr))
        (fun rid hr => by
          rw [hkeys]
          intro hmem
          rcases List.mem_append.mp hmem with hmem | hmem
          · exact hfresh rid (List.mem_cons_of_mem r hr) hmem
          · have : rid = r := canonicalKey_injective (List.mem_singleton.mp hmem)
            exact (List.nodup_cons.mp hnd).1 (this ▸ hr)), hkeys]
      simp

theorem normalizeAll_companies_length (stg : List StagingRow) :
    (normalizeAll stg emptyCanonical).companies.length = (stagedIds stg).length := by
  unfold normalizeAll
  have h := fold_normalize_companies_keys stg (stagedIds stg) emptyCanonical
    (List.nodup_dedup _)
    (fun rid hr => latestOk_isSome_of_mem_stagedIds stg rid hr)
    (fun rid _ => by simp [emptyCanonical])
  have hlen := congrArg List.length h
  rw [List.length_map] at hlen
  rw [hlen]
  simp [emptyCanonical]

/-- C6: the worker pool processes every candidate identifier no matter
how any single fetch ends: every identifier is attempted, each
counter reflects exactly the identifiers with that outcome, and every
successfully fetched identifier is staged and normalized into a
canonical company — a failing identifier never aborts the batch or
another identifier's normalization. -/
theorem claim6_partial_failure_isolation (fetch : String → FetchResult)
    (ids : List String) (h : ids.Nodup) :
    (runBatch fetch ids).1.attempted = ids.length ∧
      (runBatch fetch ids).1.succeeded =
        (ids.filter (fun i => (fetch i).isOk)).length ∧
      (runBatch fetch ids).1.failed =
        (ids.filter (fun i => (fetch i).isFailure)).length ∧
      (runBatch fetch ids).1.skipped =
        (ids.filter (fun i => (fetch i).isNotFound)).length ∧
      (normalizeAll (runBatch fetch ids).2 emptyCanonical).companies.length =
        (ids.filter (fun i => (fetch i).isOk)).length := by
  have hrb := runBatch_fold fetch ids emptyStats []
  unfold runBatch
  rw [hrb]
  simp only [List.nil_append]
  refine ⟨by simp [emptyStats], by simp [emptyStats], by simp [emptyStats],
    by simp [emptyStats], ?_⟩
  rw [normalizeAll_companies_length]
  unfold stagedIds
  rw [stagedRowsOf_ok_ids]
  rw [List.dedup_eq_self.mpr (List.Nodup.filter _ h)]

def demoFetch (goodPayload : RawExtract) : String → FetchResult :=
  fun rid => if rid == "ID5" then FetchResult.fatal else FetchResult.ok goodPayload

def demoBatchIds : List String :=
  ["ID1", "ID2", "ID3", "ID4", "ID5", "ID6", "ID7", "ID8", "ID9", "ID10"]

/-- Witness for C6: in a batch of ten identifiers where the fifth
returns FatalError, all ten are attempted, nine are staged and
normalized, and exactly one failure is recorded. -/
theorem claim6_witness :
    (runBatch (demoFetch demoExtractNew) demoBatchIds).1.attempted = 10 ∧
      (runBatch (demoFetch demoExtractNew) demoBatchIds).1.succeeded = 9 ∧
      (runBatch (demoFetch demoExtractNew) demoBatchIds).1.failed = 1 ∧
      (normalizeAll (runBatch (demoFetch demoExtractNew) demoBatchIds).2
          emptyCanonical).companies.length = 9 := by
  have h := claim6_partial_failure_isolation (demoFetch demoExtractNew)
    demoBatchIds (by decide)
  refine ⟨?_, ?_, ?_, ?_⟩
  · rw [h.1]; decide
  · rw [h.2.1]; decide
  · rw [h.2.2.1]; decide
  · rw [h.2.2.2.2]; decide

/-! ### Single-flight fetch-on-miss (claim C5) -/

/-- Modelled from the spec: the state of the Fetch-on-Miss Gateway
(section 4.5) — the canonical lookup (`fresh` returns a row only when
present and within the staleness threshold), the identifiers holding a
per-identifier lock with an in-flight registry call, the callers
coalesced behind each in-flight fetch, the number of Registry Client
calls performed, and the responses delivered to callers. -/
structure GatewayState where
  fresh : String → Option CompanyRow
  inflight : List String
  waiters : List (Nat × String)
  registryCalls : Nat
  responses : List (Nat × Option CompanyRow)

/-- Modelled from the spec: a `resolve` arrival (section 4.5 steps 1-2):
a fresh canonical hit answers immediately with no registry call; on a
miss the caller either joins the waiters of an already in-flight fetch
or acquires the per-identifier lock and triggers the single fetch. -/
def arrive (s : GatewayState) (caller : Nat) (rid : String) : GatewayState :=
  match s.fresh rid with
  | some row => { s with responses := s.responses ++ [(caller, some row)] }
  | none =>
    if rid ∈ s.inflight then
      { s with waiters := s.waiters ++ [(caller, rid)] }
    else
      { s with
          inflight := rid :: s.inflight
          waiters := s.waiters ++ [(caller, rid)]
          registryCalls := s.registryCalls + 1 }

/-- Modelled from the spec: completion of the single in-flight fetch
for an identifier — the lock is released and every coalesced waiter
receives the one fetch's result (section 4.5 steps 2-3). -/
def complete (s : GatewayState) (rid : String) (result : Option CompanyRow) :
    GatewayState :=
  { s with
      inflight := s.inflight.erase rid
      waiters := s.waiters.filter (fun w => w.2 != rid)
      responses := s.responses ++
        (s.waiters.filter (fun w => w.2 == rid)).map (fun w => (w.1, result)) }

theorem fold_arrive_inflight (rid : String) :
    ∀ (callers : List Nat) (s : GatewayState),
      s.fresh rid = none → rid ∈ s.inflight →
      (callers.foldl (fun s caller => arrive s caller rid) s).registryCalls =
          s.registryCalls ∧
        (callers.foldl (fun s caller => arrive s caller rid) s).inflight =
          s.inflight ∧
        (callers.foldl (fun s caller => arrive s caller rid) s).fresh = s.fresh ∧
        (callers.foldl (fun s caller => arrive s caller rid) s).waiters =
          s.waiters ++ callers.map (fun c => (c, rid)) := by
  intro callers
  induction callers with
  | nil => intro s _ _; simp
  | cons c0 rest ih =>
    intro s hmiss hin
    simp only [List.foldl_cons]
    have harr : arrive s c0 rid = { s with waiters := s.waiters ++ [(c0, rid)] } := by
      unfold arrive
      rw [hmiss, if_pos hin]
    rw [harr]
    rcases ih { s with waiters := s.waiters ++ [(c0, rid)] } hmiss hin with
      ⟨h1, h2, h3, h4⟩
    refine ⟨h1, h2, h3, ?_⟩
    rw [h4]
    simp

/-- C5: when any nonempty collection of resolve calls for the same
missing identifier arrives before the fetch completes, exactly one
Registry Client call is performed — the per-identifier lock coalesces
the rest — and on completion every caller receives that single fetch's
result. -/
theorem claim5_single_flight (s0 : GatewayState) (rid : String) (callers : List Nat)
    (hmiss : s0.fresh rid = none) (hnotin : rid ∉ s0.inflight)
    (hne : callers ≠ []) :
    (callers.foldl (fun s caller => arrive s caller rid) s0).registryCalls =
        s0.registryCalls + 1 ∧
      ∀ (result : Option CompanyRow), ∀ c ∈ callers,
        (c, result) ∈
          (complete (callers.foldl (fun s caller => arrive s caller rid) s0)
            rid result).responses := by
  cases callers with
  | nil => exact absurd rfl hne
  | cons c0 rest =>
    simp only [List.foldl_cons]
    have harr : arrive s0 c0 rid =
        { s0 with
            inflight := rid :: s0.inflight
            waiters := s0.waiters ++ [(c0, rid)]
            registryCalls := s0.registryCalls + 1 } := by
      unfold arrive
      rw [hmiss, if_neg hnotin]
    rw [harr]
    rcases fold_arrive_inflight rid rest
      { s0 with
          inflight := rid :: s0.inflight
          waiters := s0.waiters ++ [(c0, rid)]
          registryCalls := s0.registryCalls + 1 }
      hmiss (List.mem_cons_self rid s0.inflight)
      with ⟨h1, h2, h3, h4⟩
    refine ⟨h1, ?_⟩
    intro result c hc
    unfold complete
    simp only
    apply List.mem_append_right
    have hcw : (c, rid) ∈
        (rest.foldl (fun s caller => arrive s caller rid)
          { s0 with
              inflight := rid :: s0.inflight
              waiters := s0.waiters ++ [(c0, rid)]
              registryCalls := s0.registryCalls + 1 }).waiters := by
      rw [h4]
      simp only [List.append_assoc, List.mem_append]
      rcases List.mem_cons.mp hc with rfl | hc
      · right
        left
        exact List.mem_singleton.mpr rfl
      · right
        right
        exact List.mem_map.mpr ⟨c, hc, rfl⟩
    refine List.mem_map.mpr ⟨(c, rid), ?_, rfl⟩
    refine List.mem_filter.mpr ⟨hcw, by simp⟩

def demoGateway : GatewayState := ⟨fun _ => none, [], [], 0, []⟩

/-- Witness for C5: fifty concurrent resolve calls for the same missing
identifier yield exactly one registry call, and all fifty callers
receive the single fetch's result. -/
theorem claim5_witness :
    ((List.range 50).foldl (fun s caller => arrive s caller "FN9") demoGateway).registryCalls = 1 ∧
      ∀ c ∈ List.range 50,
        (c, (none : Option CompanyRow)) ∈
          (complete ((List.range 50).foldl (fun s caller => arrive s caller "FN9") demoGateway)
            "FN9" none).responses := by
  have h := claim5_single_flight demoGateway "FN9" (List.range 50) rfl
    (by simp [demoGateway]) (by decide)
  exact ⟨h.1, h.2 none⟩

/-! ### Rate limiting (claim C7) -/

/-- The configuration variables of the bulk ingestion wrapper
`src/backend/services/ingest/bulk_ingest.sh`, with the script's
defaults: `MAX_COMPANIES=100`, `DELAY=1.0`, `NO_DISCOVERY=false`,
`SPECIFIC_COMPANIES` empty, `SKIP_NORMALIZE=false`. -/
structure IngestConfig where
  maxCompanies : String
  delay : String
  noDiscovery : Bool
  specificCompanies : List String
  skipNormalize : Bool
deriving DecidableEq

def defaultIngestConfig : IngestConfig := ⟨"100", "1.0", false, [], false⟩

/-- The option-parsing loop of `bulk_ingest.sh`: `--max` and `--delay`
consume a following value, `--companies` consumes the remainder of the
argument list, `--no-discovery` and `--skip-normalize` are flags, and
any other argument (including `--help`, which only prints usage) stops
the run without an ingestion configuration (`none`). -/
def parseIngestArgs : List String → IngestConfig → Option IngestConfig
  | [], cfg => some cfg
  | "--max" :: v :: rest, cfg => parseIngestArgs rest { cfg with maxCompanies := v }
  | "--delay" :: v :: rest, cfg => parseIngestArgs rest { cfg with delay := v }
  | "--no-discovery" :: rest, cfg =>
    parseIngestArgs rest { cfg with noDiscovery := true }
  | "--companies" :: rest, cfg => some { cfg with specificCompanies := rest }
  | "--skip-normalize" :: rest, cfg =>
    parseIngestArgs rest { cfg with skipNormalize := true }
  | _, _ => none

/-- Modelled from the spec: a fixed-delay rate limiter shared by all
Registry Client callers (section 4.1): `t i` is the time of the i-th
registry call and consecutive calls are separated by at least the
configured minimum interval `d`. -/
def RateLimited (d : ℚ) (t : ℕ → ℚ) : Prop := ∀ n, t n + d ≤ t (n + 1)

theorem rateLimited_gap (d : ℚ) (t : ℕ → ℚ) (h : RateLimited d t) :
    ∀ (i k : ℕ), t i + (k : ℚ) * d ≤ t (i + k) := by
  intro i k
  induction k with
  | zero => simp
  | succ k ih =>
    have h2 := h (i + k)
    have heq : t i + ((k : ℚ) + 1) * d = (t i + (k : ℚ) * d) + d := by ring
    push_cast
    rw [heq, show i + (k + 1) = (i + k) + 1 by omega]
    linarith

theorem rateLimited_window (d : ℚ) (hd : 0 < d) (t : ℕ → ℚ) (h : RateLimited d t)
    (a W : ℚ) (m : ℕ) (hW : W ≤ (m : ℚ) * d) (N : ℕ) :
    ((Finset.range N).filter (fun i => a ≤ t i ∧ t i < a + W)).card ≤ m := by
  by_cases hS : ((Finset.range N).filter (fun i => a ≤ t i ∧ t i < a + W)) = ∅
  · rw [hS]
    simp
  · have hne := Finset.nonempty_of_ne_empty hS
    set i0 := ((Finset.range N).filter (fun i => a ≤ t i ∧ t i < a + W)).min' hne with hi0
    have hsub : ((Finset.range N).filter (fun i => a ≤ t i ∧ t i < a + W)) ⊆
        Finset.Ico i0 (i0 + m) := by
      intro j hj
      have hij : i0 ≤ j := Finset.min'_le _ j hj
      have hi0mem := Finset.min'_mem _ hne
      rw [← hi0] at hi0mem
      rcases Finset.mem_filter.mp hj with ⟨-, hja, hjW⟩
      rcases Finset.mem_filter.mp hi0mem with ⟨-, h0a, h0W⟩
      rw [Finset.mem_Ico]
      refine ⟨hij, ?_⟩
      by_contra hge
      push_neg at hge
      have hk : m ≤ j - i0 := by omega
      have hgap := rateLimited_gap d t h i0 (j - i0)
      rw [show i0 + (j - i0) = j by omega] at hgap
      have hmd : (m : ℚ) * d ≤ ((j - i0 : ℕ) : ℚ) * d := by
        apply mul_le_mul_of_nonneg_right _ (le_of_lt hd)
        exact_mod_cast hk
      linarith
    calc ((Finset.range N).filter (fun i => a ≤ t i ∧ t i < a + W)).card
        ≤ (Finset.Ico i0 (i0 + m)).card := Finset.card_le_card hsub
      _ = m := by rw [Nat.card_Ico]; omega

/-- C7: the bulk ingestion script's default configuration sets a delay
of 1.0 second per request, and under a shared fixed-delay rate limiter
with a minimum interval of half a second (a limit of two requests per
second) any ten-second window contains at most twenty Registry Client
calls, regardless of how many workers issue them. -/
theorem claim7_rate_limit :
    (parseIngestArgs [] defaultIngestConfig = some defaultIngestConfig ∧
      defaultIngestConfig.delay = "1.0") ∧
      ∀ t : ℕ → ℚ, RateLimited (1 / 2) t →
        ∀ (a : ℚ) (N : ℕ),
          ((Finset.range N).filter (fun i => a ≤ t i ∧ t i < a + 10)).card ≤ 20 := by
  refine ⟨⟨rfl, rfl⟩, ?_⟩
  intro t ht a N
  exact rateLimited_window (1 / 2) (by norm_num) t ht a 10 20 (by norm_num) N

/-- A concrete schedule issuing one registry call every half second. -/
def halfSecondTicks : ℕ → ℚ := fun i => (i : ℚ) * (1 / 2)

/-- Witness for C7 at a concrete half-second schedule. -/
theorem claim7_witness :
    RateLimited (1 / 2) halfSecondTicks ∧
      ((Finset.range 40).filter
        (fun i => (0 : ℚ) ≤ halfSecondTicks i ∧ halfSecondTicks i < 0 + 10)).card ≤ 20 := by
  have hrl : RateLimited (1 / 2) halfSecondTicks := by
    intro n
    unfold halfSecondTicks
    have heq : ((n : ℚ) + 1) * (1 / 2) = (n : ℚ) * (1 / 2) + 1 / 2 := by ring
    push_cast
    rw [heq]
  exact ⟨hrl, claim7_rate_limit.2 halfSecondTicks hrl 0 40⟩

/-! ### Free-text search stays local (claim C8) -/

/-- Modelled from the spec: the query forms the Fetch-on-Miss Gateway
distinguishes (section 4.5): exact-identifier lookup, exact-name
lookup, and free-text search. -/
inductive SearchQuery where
  | exactId (registerId : String)
  | exactName (nm : String)
  | freeText (text : String)

/-- Local full-text/fuzzy name search over the canonical store (the
trigram name index of `001_init.sql`), as substring match. -/
def fuzzyMatches (text : String) (c : Canonical) : List CompanyRow :=
  c.companies.filter (fun r => decide (List.IsInfix text.toList r.name.toList))

/-- Modelled from the spec: gateway resolution (section 4.5): an exact
lookup answers from the canonical store when present and performs one
registry fetch on a miss; free-text search only ever reads the
canonical store.  The second component counts Registry Client calls. -/
def resolveQuery (c : Canonical) (q : SearchQuery) : List CompanyRow × Nat :=
  match q with
  | .exactId rid =>
    match c.companies.find? (fun r => r.register_id == rid) with
    | some row => ([row], 0)
    | none => ([], 1)
  | .exactName nm =>
    match c.companies.find? (fun r => r.name == nm) with
    | some row => ([row], 0)
    | none => ([], 1)
  | .freeText text => (fuzzyMatches text c, 0)

/-- The optional search filters of `searchCompanies` in
`src/frontend/src/lib/api.ts`. -/
structure SearchFilters where
  status : Option String
  city : Option String
  fetchIfNotFound : Bool

/-- The query parameters built by `searchCompanies` in
`src/frontend/src/lib/api.ts`: always `q`, `limit`, `offset`; `status`
and `city` only when set to a non-empty (truthy) string; and
`fetch_if_not_found=true` only when the caller passed the
`fetchIfNotFound` filter. -/
def searchCompaniesParams (query : String) (limit offset : Nat)
    (filters : Option SearchFilters) : List (String × String) :=
  [("q", query), ("limit", toString limit), ("offset", toString offset)] ++
    (match filters with
      | none => []
      | some f =>
        (match f.status with
          | some s => if s == "" then [] else [("status", s)]
          | none => []) ++
          (match f.city with
            | some ci => if ci == "" then [] else [("city", ci)]
            | none => []) ++
          (if f.fetchIfNotFound then [("fetch_if_not_found", "true")] else []))

/-- C8: a free-text query is answered exclusively from the canonical
store — zero Registry Client calls, every result a stored company row —
and the frontend search request carries the fetch-on-miss flag only
when a caller explicitly asks for it. -/
theorem claim8_free_text_local_only :
    (∀ (c : Canonical) (text : String),
        (resolveQuery c (SearchQuery.freeText text)).2 = 0 ∧
          ∀ r ∈ (resolveQuery c (SearchQuery.freeText text)).1, r ∈ c.companies) ∧
      ∀ (query : String) (limit offset : Nat) (filters : Option SearchFilters),
        (∀ f, filters = some f → f.fetchIfNotFound = false) →
        "fetch_if_not_found" ∉
          (searchCompaniesParams query limit offset filters).map (fun p => p.1) := by
  constructor
  · intro c text
    exact ⟨rfl, fun r hr => (List.mem_filter.mp hr).1⟩
  · intro query limit offset filters hf hmem
    rcases List.mem_map.mp hmem with ⟨p, hp, hkey⟩
    cases filters with
    | none =>
      have hp' : p ∈
          [("q", query), ("limit", toString limit), ("offset", toString offset)] := by
        simpa [searchCompaniesParams] using hp
      simp only [List.mem_cons, List.mem_singleton] at hp'
      rcases hp' with rfl | rfl | rfl | hfalse
      · exact (by decide : ¬ ("q" : String) = "fetch_if_not_found") hkey
      · exact (by decide : ¬ ("limit" : String) = "fetch_if_not_found") hkey
      · exact (by decide : ¬ ("offset" : String) = "fetch_if_not_found") hkey
      · cases hfalse
    | some f =>
      have hff : f.fetchIfNotFound = false := hf f rfl
      have hp' : p ∈
          [("q", query), ("limit", toString limit), ("offset", toString offset)] ++
            ((match f.status with
              | some s => if s == "" then [] else [("status", s)]
              | none => []) ++
              (match f.city with
                | some ci => if ci == "" then [] else [("city", ci)]
                | none => [])) := by
        have heq : searchCompaniesParams query limit offset (some f) =
            [("q", query), ("limit", toString limit), ("offset", toString offset)] ++
              ((match f.status with
                | some s => if s == "" then [] else [("status", s)]
                | none => []) ++
                (match f.city with
                  | some ci => if ci == "" then [] else [("city", ci)]
                  | none => [])) := by
          simp only [searchCompaniesParams, hff]
          simp
        rw [heq] at hp
        exact hp
      rcases List.mem_append.mp hp' with hp2 | hp2
      · simp only [List.mem_cons, List.mem_singleton] at hp2
        rcases hp2 with rfl | rfl | rfl | hfalse
        · exact (by decide : ¬ ("q" : String) = "fetch_if_not_found") hkey
        · exact (by decide : ¬ ("limit" : String) = "fetch_if_not_found") hkey
        · exact (by decide : ¬ ("offset" : String) = "fetch_if_not_found") hkey
        · cases hfalse
      · rcases List.mem_append.mp hp2 with hp3 | hp3
        · cases hs : f.status with
          | none => simp only [hs] at hp3; cases hp3
          | some s =>
            simp only [hs] at hp3
            by_cases hse : s = ""
            · rw [if_pos (beq_iff_eq.mpr hse)] at hp3
              cases hp3
            · rw [if_neg (by simp [hse])] at hp3
              rw [List.mem_singleton.mp hp3] at hkey
              exact (by decide : ¬ ("status" : String) = "fetch_if_not_found") hkey
        · cases hc : f.city with
          | none => simp only [hc] at hp3; cases hp3
          | some ci =>
            simp only [hc] at hp3
            by_cases hce : ci = ""
            · rw [if_pos (beq_iff_eq.mpr hce)] at hp3
              cases hp3
            · rw [if_neg (by simp [hce])] at hp3
              rw [List.mem_singleton.mp hp3] at hkey
              exact (by decide : ¬ ("city" : String) = "fetch_if_not_found") hkey

/-- Witness for C8 at a concrete free-text query and a default
(filterless) frontend search request. -/
theorem claim8_witness :
    (resolveQuery demoState (SearchQuery.freeText "Acme")).2 = 0 ∧
      "fetch_if_not_found" ∉
        (searchCompaniesParams "Acme" 20 0 none).map (fun p => p.1) := by
  have h := claim8_free_text_local_only
  exact ⟨(h.1 demoState "Acme").1,
    h.2 "Acme" 20 0 none (fun f hh => by cases hh)⟩

/-! ### Referential integrity and cascade deletes (claim C9) -/

/-- A company row of the `companies` table of `001_init.sql`, with its
generated primary key. -/
structure DbCompany where
  id : Nat
  register_id : String
  name : String
deriving DecidableEq

/-- An officer row of `001_init.sql`: `company_id UUID REFERENCES
companies(id) ON DELETE CASCADE`; the column carries no NOT NULL
constraint, so it is nullable. -/
structure DbOfficer where
  company_id : Option Nat
  person_name : String
  role : String
deriving DecidableEq

/-- An `ownership_links` row of `001_init.sql`: both endpoints are
nullable foreign keys with ON DELETE CASCADE. -/
structure DbLink where
  from_company_id : Option Nat
  to_company_id : Option Nat
  link_type : String
deriving DecidableEq

/-- The canonical tables of `001_init.sql` as one database state;
`nextId` stands in for primary-key generation. -/
structure Db where
  companies : List DbCompany
  officers : List DbOfficer
  links : List DbLink
  nextId : Nat
deriving DecidableEq

def emptyDb : Db := ⟨[], [], [], 0⟩

/-- The data-manipulation statements the schema admits on these
tables. -/
inductive DbOp where
  | insertCompany (register_id nm : String)
  | insertOfficer (company_id : Option Nat) (person_name role : String)
  | insertLink (from_id to_id : Option Nat) (link_type : String)
  | deleteCompany (id : Nat)
deriving DecidableEq

def companyIdExists (db : Db) (i : Nat) : Bool :=
  db.companies.any (fun c => c.id == i)

/-- Postgres foreign-key semantics: a NULL reference satisfies the
constraint; a non-NULL reference must name an existing company. -/
def fkOk (db : Db) : Option Nat → Bool
  | none => true
  | some i => companyIdExists db i

/-- One statement against the `001_init.sql` schema: inserts are
checked against the foreign keys (`none` = statement rejected by the
constraint); deleting a company cascades to its officer rows and to
every link row touching it (ON DELETE CASCADE). -/
def applyOp (db : Db) (op : DbOp) : Option Db :=
  match op with
  | .insertCompany rid nm =>
    some { db with
      companies := db.companies ++ [⟨db.nextId, rid, nm⟩]
      nextId := db.nextId + 1 }
  | .insertOfficer cid pn role =>
    if fkOk db cid then
      some { db with officers := db.officers ++ [⟨cid, pn, role⟩] }
    else none
  | .insertLink fid tid ty =>
    if fkOk db fid && fkOk db tid then
      some { db with links := db.links ++ [⟨fid, tid, ty⟩] }
    else none
  | .deleteCompany i =>
    some { db with
      companies := db.companies.filter (fun c => c.id != i)
      officers := db.officers.filter (fun o => o.company_id != some i)
      links := db.links.filter
        (fun l => !(l.from_company_id == some i || l.to_company_id == some i)) }

/-- Running a statement list; a rejected statement leaves the database
unchanged. -/
def runOps (db : Db) (ops : List DbOp) : Db :=
  ops.foldl (fun d op => (applyOp d op).getD d) db

/-- Referential integrity: every non-null reference names an existing
company row. -/
def RefIntegrity (db : Db) : Prop :=
  (∀ o ∈ db.officers, ∀ i, o.company_id = some i →
    ∃ c ∈ db.companies, c.id = i) ∧
    ∀ l ∈ db.links,
      (∀ i, l.from_company_id = some i → ∃ c ∈ db.companies, c.id = i) ∧
      (∀ i, l.to_company_id = some i → ∃ c ∈ db.companies, c.id = i)

theorem applyOp_refIntegrity (db : Db) (op : DbOp) (h : RefIntegrity db) :
    RefIntegrity ((applyOp db op).getD db) := by
  cases op with
  | insertCompany rid nm =>
    refine ⟨?_, ?_⟩
    · intro o ho i hoi
      rcases h.1 o ho i hoi with ⟨c, hc, hci⟩
      exact ⟨c, List.mem_append_left _ hc, hci⟩
    · intro l hl
      rcases h.2 l hl with ⟨hf, ht⟩
      exact ⟨fun i hi => (hf i hi).elim
          (fun c hc => ⟨c, List.mem_append_left _ hc.1, hc.2⟩),
        fun i hi => (ht i hi).elim
          (fun c hc => ⟨c, List.mem_append_left _ hc.1, hc.2⟩)⟩
  | insertOfficer cid pn role =>
    simp only [applyOp]
    split
    · rename_i hfk
      simp only [Option.getD_some]
      refine ⟨?_, h.2⟩
      intro o ho i hoi
      rcases List.mem_append.mp ho with ho | ho
      · exact h.1 o ho i hoi
      · rw [List.mem_singleton.mp ho] at hoi
        simp only at hoi
        rw [hoi] at hfk
        unfold fkOk companyIdExists at hfk
        rcases List.any_eq_true.mp hfk with ⟨c, hc, hci⟩
        exact ⟨c, hc, beq_iff_eq.mp hci⟩
    · exact h
  | insertLink fid tid ty =>
    simp only [applyOp]
    split
    · rename_i hfk
      have hfk2 : fkOk db fid = true ∧ fkOk db tid = true := by
        simpa [Bool.and_eq_true] using hfk
      rcases hfk2 with ⟨hff, hft⟩
      simp only [Option.getD_some]
      refine ⟨h.1, ?_⟩
      intro l hl
      rcases List.mem_append.mp hl with hl | hl
      · exact h.2 l hl
      · rw [List.mem_singleton.mp hl]
        constructor
        · intro i hi
          simp only at hi
          rw [hi] at hff
          unfold fkOk companyIdExists at hff
          rcases List.any_eq_true.mp hff with ⟨c, hc, hci⟩
          exact ⟨c, hc, beq_iff_eq.mp hci⟩
        · intro i hi
          simp only at hi
          rw [hi] at hft
          unfold fkOk companyIdExists at hft
          rcases List.any_eq_true.mp hft with ⟨c, hc, hci⟩
          exact ⟨c, hc, beq_iff_eq.mp hci⟩
    · exact h
  | deleteCompany i =>
    refine ⟨?_, ?_⟩
    · intro o ho j hoj
      rcases List.mem_filter.mp ho with ⟨ho, hop⟩
      rcases h.1 o ho j hoj with ⟨c, hc, hcj⟩
      refine ⟨c, List.mem_filter.mpr ⟨hc, ?_⟩, hcj⟩
      simp only [bne_iff_ne, ne_eq]
      intro hci
      rw [hcj] at hci
      rw [hci] at hoj
      rw [hoj] at hop
      simp at hop
    · intro l hl
      rcases List.mem_filter.mp hl with ⟨hl, hlp⟩
      simp only [Bool.not_eq_true', Bool.or_eq_false_iff, beq_eq_false_iff_ne,
        ne_eq] at hlp
      rcases h.2 l hl with ⟨hf, ht⟩
      constructor
      · intro j hj
        rcases hf j hj with ⟨c, hc, hcj⟩
        refine ⟨c, List.mem_filter.mpr ⟨hc, ?_⟩, hcj⟩
        simp only [bne_iff_ne, ne_eq]
        intro hci
        rw [hcj] at hci
        rw [hci] at hj
        exact hlp.1 hj
      · intro j hj
        rcases ht j hj with ⟨c, hc, hcj⟩
        refine ⟨c, List.mem_filter.mpr ⟨hc, ?_⟩, hcj⟩
        simp only [bne_iff_ne, ne_eq]
        intro hci
        rw [hcj] at hci
        rw [hci] at hj
        exact hlp.2 hj

theorem runOps_refIntegrity (ops : List DbOp) :
    ∀ db : Db, RefIntegrity db → RefIntegrity (runOps db ops) := by
  induction ops with
  | nil => intro db h; exact h
  | cons op ops ih =>
    intro db h
    exact ih _ (applyOp_refIntegrity db op h)

theorem emptyDb_refIntegrity : RefIntegrity emptyDb :=
  ⟨fun o ho => absurd ho (List.not_mem_nil o),
    fun l hl => absurd hl (List.not_mem_nil l)⟩

/-- The reachable state obtained by inserting one officer row with a
NULL company reference into the empty database — the schema admits the
statement. -/
def orphanOfficerDb : Db := runOps emptyDb [DbOp.insertOfficer none "Ada" "CEO"]

/-- C9 counterexample: the officer foreign key of `001_init.sql` is
nullable, so a reachable state contains an officer row that references
no canonical company at all — "every officer row references an
existing canonical company" fails as stated. -/
theorem claim9_counterexample :
    (∃ ops : List DbOp, runOps emptyDb ops = orphanOfficerDb) ∧
      ¬ (∀ o ∈ orphanOfficerDb.officers, ∃ c ∈ orphanOfficerDb.companies,
          o.company_id = some c.id) :=
  ⟨⟨[DbOp.insertOfficer none "Ada" "CEO"], rfl⟩, by decide⟩

/-- C9 (amended): in every reachable database state, every officer row
with a non-null company reference names an existing company and every
link row's non-null endpoints name existing companies; deleting a
company removes it together with all officer rows referencing it and
all link rows in which it appears, so no operation leaves dangling
non-null references. -/
theorem claim9_referential_integrity (db : Db)
    (h : ∃ ops : List DbOp, runOps emptyDb ops = db) :
    RefIntegrity db ∧
      ∀ i : Nat,
        (∀ o ∈ ((applyOp db (DbOp.deleteCompany i)).getD db).officers,
          o.company_id ≠ some i) ∧
        (∀ l ∈ ((applyOp db (DbOp.deleteCompany i)).getD db).links,
          l.from_company_id ≠ some i ∧ l.to_company_id ≠ some i) ∧
        (∀ c ∈ ((applyOp db (DbOp.deleteCompany i)).getD db).companies,
          c.id ≠ i) := by
  constructor
  · rcases h with ⟨ops, rfl⟩
    exact runOps_refIntegrity ops emptyDb emptyDb_refIntegrity
  · intro i
    refine ⟨?_, ?_, ?_⟩
    · intro o ho
      rcases List.mem_filter.mp ho with ⟨-, hop⟩
      simpa using hop
    · intro l hl
      rcases List.mem_filter.mp hl with ⟨-, hlp⟩
      simp only [Bool.not_eq_true', Bool.or_eq_false_iff, beq_eq_false_iff_ne,
        ne_eq] at hlp
      exact hlp
    · intro c hc
      rcases List.mem_filter.mp hc with ⟨-, hcp⟩
      simpa using hcp

/-- A small populated database state used by the C9 witness. -/
def demoDb : Db :=
  runOps emptyDb
    [DbOp.insertCompany "FN1" "Acme", DbOp.insertOfficer (some 0) "Ada" "CEO",
      DbOp.insertLink (some 0) (some 0) "owns"]

/-- Witness for the amended C9 at a concrete reachable database. -/
theorem claim9_witness :
    RefIntegrity demoDb ∧
      ∀ o ∈ ((applyOp demoDb (DbOp.deleteCompany 0)).getD demoDb).officers,
        o.company_id ≠ some 0 := by
  have h := claim9_referential_integrity demoDb
    ⟨[DbOp.insertCompany "FN1" "Acme", DbOp.insertOfficer (some 0) "Ada" "CEO",
      DbOp.insertLink (some 0) (some 0) "owns"], rfl⟩
  exact ⟨h.1, (h.2 0).1⟩

/-! ### The /api/search route handler (claim C10) -/

/-- One record of the proxied upstream response
(`{ results: [{ fnr, name }] }`); both fields may be absent in the
untyped JSON the route consumes. -/
structure UpstreamRecord where
  fnr : Option String
  name : Option String
deriving DecidableEq

/-- The upstream response as the route sees it: the ok flag, the HTTP
status code, and the optional `results` array. -/
structure UpstreamResponse where
  ok : Bool
  status : Nat
  results : Option (List UpstreamRecord)
deriving DecidableEq

/-- One item of the route's response body. -/
structure SearchItem where
  id : Option String
  name : String
deriving DecidableEq

/-- The route's JSON response: the `items` and `total` body fields and
the HTTP status it is served with. -/
structure RouteResponse where
  items : List SearchItem
  total : Nat
  status : Nat
deriving DecidableEq

/-- The GET handler of `src/frontend/src/app/api/search/route.ts`: a
non-ok upstream response yields `{items: [], total: 0}` with the
upstream's status; otherwise each record maps to
`{id: r.fnr, name: r.name ?? ''}` (missing `results` treated as `[]`)
and the body carries `total = items.length`. -/
def searchRouteGET (res : UpstreamResponse) : RouteResponse :=
  if !res.ok then
    ⟨[], 0, res.status⟩
  else
    let items := (res.results.getD []).map (fun r => ⟨r.fnr, r.name.getD ""⟩)
    ⟨items, items.length, 200⟩

/-- C10: the search route's body always satisfies
`total = items.length`; a non-ok upstream response produces the empty
body with the upstream status; an ok response produces one item per
upstream record with `id` the record's `fnr` and `name` the record's
name or the empty string when missing. -/
theorem claim10_search_route_shape (res : UpstreamResponse) :
    (searchRouteGET res).total = (searchRouteGET res).items.length ∧
      (res.ok = false →
        (searchRouteGET res).items = [] ∧ (searchRouteGET res).total = 0 ∧
          (searchRouteGET res).status = res.status) ∧
      (res.ok = true →
        List.Forall₂ (fun (r : UpstreamRecord) (it : SearchItem) =>
            it.id = r.fnr ∧ it.name = r.name.getD "")
          (res.results.getD []) (searchRouteGET res).items) := by
  unfold searchRouteGET
  cases hok : res.ok with
  | false =>
    simp only [Bool.not_false, if_pos rfl]
    refine ⟨rfl, fun _ => ⟨rfl, rfl, rfl⟩, fun htrue => ?_⟩
    cases htrue
  | true =>
    simp only [Bool.not_true, Bool.false_eq_true, if_false]
    refine ⟨?_, fun hfalse => ?_, fun _ => ?_⟩
    · trivial
    · cases hfalse
    · rw [List.forall₂_map_right_iff, List.forall₂_same]
      intro r _
      exact ⟨rfl, rfl⟩

def demoBadResponse : UpstreamResponse := ⟨false, 503, none⟩

def demoOkResponse : UpstreamResponse :=
  ⟨true, 200, some [⟨some "FN1", some "Acme"⟩, ⟨none, none⟩]⟩

/-- Witness for C10 at a concrete failing and a concrete successful
upstream response. -/
theorem claim10_witness :
    (searchRouteGET demoBadResponse).items = [] ∧
      (searchRouteGET demoBadResponse).status = 503 ∧
      (searchRouteGET demoOkResponse).total = 2 ∧
      List.Forall₂ (fun (r : UpstreamRecord) (it : SearchItem) =>
          it.id = r.fnr ∧ it.name = r.name.getD "")
        (demoOkResponse.results.getD []) (searchRouteGET demoOkResponse).items := by
  have h1 := claim10_search_route_shape demoBadResponse
  have h2 := claim10_search_route_shape demoOkResponse
  refine ⟨(h1.2.1 rfl).1, (h1.2.1 rfl).2.2, ?_, h2.2.2 rfl⟩
  rw [h2.1]
  decide

end BizRay
